import Mathlib

/-!
# Verification of the rope tree core

A shallow embedding, in Lean 4, of the rope data-structure core found in
`src/child_array.rs`, `src/node.rs` and `src/slice.rs`, together with proofs
about its documented behaviour.

Conventions of the embedding:

* Rust `usize`/`u32` counts are modelled as `Nat` (the values are used only
  as sizes and indices of in-memory arrays and strings).
* A UTF-8 string (`SmallString`, `&str`) is modelled as a `List Char` of its
  Unicode scalar values; the byte length is the sum of the scalars' UTF-8
  sizes (`Char.utf8Size`).
* Code that panics (assertion failures, out-of-bounds indexing, `unwrap` on
  `None`) is modelled with `Option`: a `none` result is a panic.
* Mutation through `&mut self` is modelled by explicit state passing: a
  function returns the updated value next to its result.
* Helpers that live in modules not present under `src/` (`text_info.rs`,
  `str_utils.rs`, `small_string_utils.rs`, `tree.rs`) are modelled from the
  specification; each such definition carries a doc comment starting with
  `Modelled from the spec:`.
-/

/-! ## Text metrics (`TextInfo`) -/

/-- Byte length of a text: the sum of the UTF-8 sizes of its scalar values. -/
def strBytes (t : List Char) : Nat :=
  (t.map Char.utf8Size).sum

/-- Modelled from the spec: the line-break classifier is externalized
(spec §3.1, §9); every candidate set contains LF, and no claim below depends
on the exact set, so the model counts LF only. -/
def countLineBreaks (t : List Char) : Nat :=
  (t.filter (fun c => c == '\n')).length

/-- Modelled from the spec: the `TextInfo` record of per-chunk metrics
(spec §3.1) — byte count, scalar count, line-break count.  `text_info.rs`
itself is not under `src/`. -/
structure TextInfo where
  bytes : Nat
  chars : Nat
  line_breaks : Nat
deriving DecidableEq, Repr

/-- `TextInfo::new` — the zero element (spec §4.1 `Info.zero`). -/
def TextInfo.new : TextInfo := ⟨0, 0, 0⟩

instance : Inhabited TextInfo := ⟨TextInfo.new⟩

/-- `TextInfo::combine` — elementwise sum (spec §4.1). -/
def TextInfo.combine (a b : TextInfo) : TextInfo :=
  ⟨a.bytes + b.bytes, a.chars + b.chars, a.line_breaks + b.line_breaks⟩

/-- `TextInfo::from_str` — scan the text computing the three counts
(spec §3.1, §4.1). -/
def TextInfo.fromStr (t : List Char) : TextInfo :=
  ⟨strBytes t, t.length, countLineBreaks t⟩

/-- `ChildArray::combined_info` (`src/child_array.rs:328`): fold of the info
slots under `combine` starting from the zero element. -/
def combinedInfo (l : List TextInfo) : TextInfo :=
  l.foldl TextInfo.combine TextInfo.new

/-! ## `search_combine`

Translated from `ChildArray::search_combine_info` (`src/child_array.rs:335`):
scan left to right keeping a running combination `accum`; at each slot test
the predicate on `accum.combine(inf)`; on success return the index and the
accumulator from *before* that slot; if the scan ends, panic
("Predicate is mal-formed and never evaluated true.").  The source iterates
with an `enumerate` counter; the structural recursion below increments the
returned index instead, which yields the same index. -/
def searchCombineGo (p : TextInfo → Bool) :
    List TextInfo → TextInfo → Option (Nat × TextInfo)
  | [], _ => none
  | inf :: rest, accum =>
    if p (accum.combine inf) then some (0, accum)
    else (searchCombineGo p rest (accum.combine inf)).map (fun r => (r.1 + 1, r.2))

/-- `ChildArray::search_combine_info` (`src/child_array.rs:335`); a `none`
result is the source's `MalformedPredicate` panic.  The `search_combine`
method on info arrays used by `src/node.rs` lives in `text_info.rs` (not
under `src/`); the spec (§4.1, §4.4.1) states it is the same scan, so this
definition serves both call sites. -/
def searchCombineInfo (info : List TextInfo) (p : TextInfo → Bool) :
    Option (Nat × TextInfo) :=
  searchCombineGo p info TextInfo.new

/-! ## Leaf-level scans

`small_string_utils.rs` is not under `src/`; the two scans below are
modelled from spec §4.4.1. -/

/-- Modelled from the spec: `char_pos_to_byte_pos` (from
`small_string_utils`, not under `src/`): "UTF-8 scan mapping the `i`-th
scalar to its byte offset" (spec §4.4.1).  Scanning past the end of the text
stops at the total byte length. -/
def charPosToBytePos : List Char → Nat → Nat
  | _, 0 => 0
  | [], _ + 1 => 0
  | c :: cs, i + 1 => c.utf8Size + charPosToBytePos cs i

/-- Modelled from the spec: the leaf-level byte→scalar scan.  The node-level
`byte_to_char` is the `unimplemented!()` stub at `src/node.rs:54`; spec
§4.4.1 and §9 give the inferred contract: "follow the same pattern with the
corresponding metric", the leaf case being the inverse UTF-8 scan. -/
def bytePosToCharPos : List Char → Nat → Nat
  | [], _ => 0
  | c :: cs, b => if b < c.utf8Size then 0 else 1 + bytePosToCharPos cs (b - c.utf8Size)

/-! ## The node type of `src/node.rs`

`Node` (`src/node.rs:24`): `Empty`, `Leaf` of an inline string, or
`Internal` with the parallel `info` and `children` arrays (the `ArrayVec`s
of capacity `MAX_CHILDREN`; the capacity bound plays no role in any claim
settled here, so the model uses plain lists). -/

/-- `MAX_CHILDREN` (`src/node.rs:15`). -/
def MAX_CHILDREN : Nat := 16

/-- `MIN_CHILDREN` (`src/node.rs:16`). -/
def MIN_CHILDREN : Nat := MAX_CHILDREN / 2

/-- `MAX_BYTES` (`src/node.rs:19`). -/
def MAX_BYTES : Nat := 334

/-- `MIN_BYTES` (`src/node.rs:20`). -/
def MIN_BYTES : Nat := MAX_BYTES / 2

/-- `Node` (`src/node.rs:24`). -/
inductive Node where
  | empty
  | leaf (text : List Char)
  | internal (info : List TextInfo) (children : List Node)
deriving Repr

/-- `Node::text_info` (`src/node.rs:115`): zero for `Empty`, a text scan for
`Leaf`, and the fold of the info array for `Internal`. -/
def Node.textInfo : Node → TextInfo
  | .empty => TextInfo.new
  | .leaf t => TextInfo.fromStr t
  | .internal info _ => combinedInfo info

/-- `Node::char_count` (`src/node.rs:44`). -/
def Node.charCount (n : Node) : Nat := n.textInfo.chars

/-- `Node::byte_count` (`src/node.rs:39`). -/
def Node.byteCount (n : Node) : Nat := n.textInfo.bytes

mutual

/-- The text represented by a subtree: concatenation of its leaves in
order.  (The spec calls this `concat_leaves`, §8.1.) -/
def Node.flatten : Node → List Char
  | .empty => []
  | .leaf t => t
  | .internal _ children => flattenAll children

def flattenAll : List Node → List Char
  | [] => []
  | c :: cs => c.flatten ++ flattenAll cs

end

mutual

/-- `Node::verify_integrity` (`src/node.rs:241`) as a decidable predicate:
at every internal node the two arrays have equal length and each info slot
equals the corresponding child's `text_info()`, recursively. -/
def Node.goodB : Node → Bool
  | .empty => true
  | .leaf _ => true
  | .internal info children =>
      decide (info = children.map Node.textInfo) && goodAll children

def goodAll : List Node → Bool
  | [] => true
  | c :: cs => c.goodB && goodAll cs

end



/-- `Node::char_to_byte` (`src/node.rs:66`): the byte index of the given
char.  Leaf: the UTF-8 scan.  Internal: a shortcut for zero, then
`search_combine` on scalars picks the child `ci` and the prefix `acc`; a
shortcut when `i` lands exactly on that child's right boundary, else recurse
into the child with `i - acc.chars` and add `acc.bytes`.  A `none` result is
a panic (`MalformedPredicate` in `search_combine`, or an out-of-bounds
index). -/
def Node.charToByte : Node → Nat → Option Nat
  | .empty, _ => some 0
  | .leaf t, i => some (charPosToBytePos t i)
  | .internal info children, i =>
    if i = 0 then some 0
    else
      match searchCombineInfo info (fun inf => decide (i ≤ inf.chars)) with
      | none => none
      | some (ci, acc) =>
        match info.get? ci with
        | none => none
        | some inf =>
          if i = acc.chars + inf.chars then some (acc.bytes + inf.bytes)
          else
            match hc : children.get? ci with
            | none => none
            | some child =>
              (child.charToByte (i - acc.chars)).map (fun b => acc.bytes + b)
termination_by n _ => sizeOf n
decreasing_by
  simp_wf
  have := List.sizeOf_lt_of_mem (List.get?_mem hc)
  omega

/-- Modelled from the spec: `Node::byte_to_char` is the `unimplemented!()`
stub at `src/node.rs:54`; spec §4.4.1 and §9 state the inferred contract is
`char_to_byte`'s pattern with the byte metric driving the search, and the
leaf case the inverse UTF-8 scan. -/
def Node.byteToChar : Node → Nat → Option Nat
  | .empty, _ => some 0
  | .leaf t, b => some (bytePosToCharPos t b)
  | .internal info children, b =>
    if b = 0 then some 0
    else
      match searchCombineInfo info (fun inf => decide (b ≤ inf.bytes)) with
      | none => none
      | some (ci, acc) =>
        match info.get? ci with
        | none => none
        | some inf =>
          if b = acc.bytes + inf.bytes then some (acc.chars + inf.chars)
          else
            match hc : children.get? ci with
            | none => none
            | some child =>
              (child.byteToChar (b - acc.bytes)).map (fun c => acc.chars + c)
termination_by n _ => sizeOf n
decreasing_by
  simp_wf
  have := List.sizeOf_lt_of_mem (List.get?_mem hc)
  omega

/-! ## The overflow split of `Node::insert` -/

/-- The transfer loop of `Node::insert`'s split path (`src/node.rs:214`):
`for _ in l_count..children.len() { r.push(children.remove(l_count)) }` —
repeat `n` times: remove the element at index `i` of the first list and push
it onto the end of the second.  The source runs one loop moving the `info`
and `children` entries in lockstep; the two arrays are independent, so the
model applies the same loop to each. -/
def removeLoop {α : Type} : Nat → Nat → List α × List α → List α × List α
  | 0, _, p => p
  | n + 1, i, (src, dst) =>
    match src.get? i with
    | none => (src, dst)
    | some x => removeLoop n i (src.eraseIdx i, dst ++ [x])

/-- The residual-handling block of `Node::insert` on an internal node
(`src/node.rs:188-228`): given the parallel `info`/`children` arrays and the
index `child_i` of the child whose recursive insert produced the residual
node `r_node`, either insert the residual at `child_i + 1` (when there is
room) or split: when `child_i < len - 1` the last element is popped off to
make room and the residual inserted at `child_i + 1`, otherwise the residual
itself is the overflow item; then the halves are formed by the transfer loop
and the overflow item is pushed onto the right half.  Returns the arrays
left in place and, on a split, the arrays of the returned right node. -/
def internalInsertResidual (info : List TextInfo) (children : List Node)
    (child_i : Nat) (r_node : Node) :
    (List TextInfo × List Node) × Option (List TextInfo × List Node) :=
  if children.length < MAX_CHILDREN then
    ((info.insertIdx (child_i + 1) r_node.textInfo,
      children.insertIdx (child_i + 1) r_node), none)
  else
    let step :=
      if child_i < children.length - 1 then
        (info.getLastD TextInfo.new, children.getLastD Node.empty,
         (info.dropLast).insertIdx (child_i + 1) r_node.textInfo,
         (children.dropLast).insertIdx (child_i + 1) r_node)
      else
        (r_node.textInfo, r_node, info, children)
    match step with
    | (extra_info, extra_child, info2, children2) =>
      let r_count := (children2.length + 1) / 2
      let l_count := (children2.length + 1) - r_count
      let (info3, r_info) :=
        removeLoop (children2.length - l_count) l_count (info2, [])
      let (children3, r_children) :=
        removeLoop (children2.length - l_count) l_count (children2, [])
      ((info3, children3),
       some (r_info ++ [extra_info], r_children ++ [extra_child]))

/-! ## The child-array node used by `RopeSlice`

`src/slice.rs` imports `Node` from the `tree` module, which is not under
`src/`; its shape is pinned down by its uses there: the match in
`RopeSlice::new_with_range` (`src/slice.rs:44`) has exactly the arms
`Node::Leaf(_)` and `Node::Internal(children)`, where `children` is the
`ChildArray` of `src/child_array.rs` (parallel `info`/`nodes` arrays with an
explicit length, offering `.info()` and `.nodes()` views). -/

/-- Modelled from the spec (§2, §3.3) and the uses in `src/slice.rs` and
`src/child_array.rs`: the `tree` module's node — a leaf with inline text or
an internal node with a child array. -/
inductive NodeC where
  | leaf (text : List Char)
  | internal (children : List (TextInfo × NodeC))
deriving Repr

/-- A `ChildArray` (`src/child_array.rs:19`), modelled as the list of its
initialized `(TextInfo, node)` slots in order (the parallel fixed-capacity
arrays hold the pairs at indices `0..len`). -/
abbrev ChildArray := List (TextInfo × NodeC)

/-- `MAX_LEN` (`src/child_array.rs:17`). -/
def MAX_LEN : Nat := MAX_CHILDREN

/-- `Node::text_info` for the child-array node: modelled from the spec
(§4.4.1 `summary()`, matching `Node::text_info` in `src/node.rs:115`): a
text scan on a leaf, the combine of the info slots on an internal node. -/
def NodeC.textInfo : NodeC → TextInfo
  | .leaf t => TextInfo.fromStr t
  | .internal children => combinedInfo (children.map Prod.fst)

/-- `ChildArray::push` (`src/child_array.rs:76`): append at index `len`
(the source asserts `len < MAX_LEN`). -/
def ChildArray.push (a : ChildArray) (item : TextInfo × NodeC) : ChildArray :=
  a ++ [item]

/-- `ChildArray::pop` (`src/child_array.rs:173`): return the last item and
shrink by one (the source asserts `len > 0`; the default is never read at
the call sites, which all establish non-emptiness). -/
def ChildArray.pop (a : ChildArray) : (TextInfo × NodeC) × ChildArray :=
  (a.getLastD (TextInfo.new, NodeC.leaf []), a.dropLast)

/-- `ChildArray::insert` (`src/child_array.rs:186`): shift-and-insert at
`idx` (the source asserts `idx ≤ len` and `len < MAX_LEN`). -/
def ChildArray.insertAt (a : ChildArray) (idx : Nat) (item : TextInfo × NodeC) :
    ChildArray :=
  a.insertIdx idx item

/-- `ChildArray::split_off` (`src/child_array.rs:258`): repeatedly
`other.push(self.remove(idx))`, `len - idx` times — the same loop shape as
`removeLoop`.  Returns the array left in place and the returned right part. -/
def ChildArray.splitOff (a : ChildArray) (idx : Nat) : ChildArray × ChildArray :=
  removeLoop (a.length - idx) idx (a, [])

/-- `ChildArray::push_split` (`src/child_array.rs:87`): split off the right
`(len+1)/2` items and push the new child onto the end of the right half. -/
def ChildArray.pushSplit (a : ChildArray) (new_child : TextInfo × NodeC) :
    ChildArray × ChildArray :=
  let r_count := (a.length + 1) / 2
  let l_count := (a.length + 1) - r_count
  let (l, right) := a.splitOff l_count
  (l, right.push new_child)

/-- `ChildArray::insert_split` (`src/child_array.rs:214`): when
`idx < len`, pop the last item off, insert the new item at `idx`, and call
`push_split` with the popped item; otherwise `push_split` the item itself
(the source asserts `len > 0` and `idx ≤ len`). -/
def ChildArray.insertSplit (a : ChildArray) (idx : Nat)
    (item : TextInfo × NodeC) : ChildArray × ChildArray :=
  if idx < a.length then
    let (extra, a1) := a.pop
    (a1.insertAt idx item).pushSplit extra
  else
    a.pushSplit item

/-- `ChildArray::i` (`src/child_array.rs:271`): asserts `n < len` (`none`
models the panic), then returns the info and the node **at index
`self.len`** — one past the last initialized slot, which is uninitialized
memory (and an out-of-bounds panic when the array is full).  In the logical
model that slot does not exist, so the read yields `none`.  `i_mut`
(`src/child_array.rs:280`) is the same indexing with `&mut` references. -/
def ChildArray.i (a : ChildArray) (n : Nat) : Option (TextInfo × NodeC) :=
  if n < a.length then a.get? a.length else none

/-- The documented contract of `ChildArray::i` / `i_mut` ("Gets references
to the nth item's node and info", `src/child_array.rs:270`; the spec's §9
open-questions note fixes element `n` as the intended semantics). -/
def ChildArray.iSpec (a : ChildArray) (n : Nat) : Option (TextInfo × NodeC) :=
  if n < a.length then a.get? n else none

/-- The loop `while children2.len() < r_target { children2.insert(0,
children1.pop()) }` of the internal arm of `merge_distribute`
(`src/child_array.rs:144`). -/
def distributeRight (r_target : Nat) (l r : ChildArray) :
    ChildArray × ChildArray :=
  if r.length < r_target then
    match l.getLast? with
    | some x => distributeRight r_target l.dropLast (x :: r)
    | none => (l, r)
  else (l, r)
termination_by r_target - r.length
decreasing_by
  simp_wf
  omega

/-- The loop `while children2.len() > r_target { children1.push(
children2.remove(0)) }` of the internal arm of `merge_distribute`
(`src/child_array.rs:147`). -/
def distributeLeft (r_target : Nat) (l r : ChildArray) :
    ChildArray × ChildArray :=
  if r_target < r.length then
    match hr : r with
    | x :: r1 => distributeLeft r_target (l.push x) r1
    | [] => (l, r)
  else (l, r)
termination_by r.length - r_target
decreasing_by
  simp_wf
  subst hr
  have hlen : (x :: r1).length = r1.length + 1 := rfl
  omega

/-- `ChildArray::merge_distribute` (`src/child_array.rs:103`): attempt to
merge children `idx1` and `idx2`; when there is too much data,
equidistribute instead.  Returns `true` for a merge (slot `idx2` removed and
slot `idx1`'s info refreshed from its node) and `false` for a distribution
(both info slots refreshed); `none` models the assertion panics and the
"Siblings have different node types" panic.

For leaf children the split position comes from
`nearest_internal_grapheme_boundary` (`str_utils.rs`, not under `src/`),
here passed explicitly.  Modelled from the spec (§4.3): `gb t pos` picks a
split position near byte position `pos` on a grapheme-cluster boundary
interior to `t`, or the end of `t` when no interior boundary exists;
grapheme boundaries are an external oracle (§6).  The model has `gb` return
the *scalar index* of the chosen boundary: every grapheme boundary is a
scalar boundary, so boundary byte positions are in bijection with scalar
indices, and a side is byte-empty iff it is scalar-empty. -/
def ChildArray.mergeDistribute (gb : List Char → Nat → Nat) (a : ChildArray)
    (idx1 idx2 : Nat) : Option (Bool × ChildArray) :=
  if idx1 < idx2 ∧ idx2 < a.length then
    match a.get? idx1, a.get? idx2 with
    | some (_, NodeC.leaf t1), some (_, NodeC.leaf t2) =>
      let t := t1 ++ t2
      if strBytes t ≤ MAX_BYTES then
        some (true,
          (a.set idx1 ((NodeC.leaf t).textInfo, NodeC.leaf t)).eraseIdx idx2)
      else
        let split_pos := gb t (strBytes t - strBytes t / 2)
        let t1s := t.take split_pos
        let t2s := t.drop split_pos
        if 0 < t2s.length then
          some (false,
            ((a.set idx1 ((NodeC.leaf t1s).textInfo, NodeC.leaf t1s)).set idx2
              ((NodeC.leaf t2s).textInfo, NodeC.leaf t2s)))
        else
          some (true,
            (a.set idx1 ((NodeC.leaf t1s).textInfo, NodeC.leaf t1s)).eraseIdx
              idx2)
    | some (_, NodeC.internal c1), some (_, NodeC.internal c2) =>
      if c1.length + c2.length < MAX_LEN then
        some (true,
          (a.set idx1
            ((NodeC.internal (c1 ++ c2)).textInfo,
              NodeC.internal (c1 ++ c2))).eraseIdx idx2)
      else
        let r_target := (c1.length + c2.length) / 2
        let (c1a, c2a) := distributeRight r_target c1 c2
        let (c1b, c2b) := distributeLeft r_target c1a c2a
        some (false,
          ((a.set idx1 ((NodeC.internal c1b).textInfo, NodeC.internal c1b)).set
            idx2 ((NodeC.internal c2b).textInfo, NodeC.internal c2b)))
    | _, _ => none
  else none

/-! ## The slice view (`src/slice.rs`) -/

/-- The child-search loop of `RopeSlice::new_with_range`
(`src/slice.rs:48-57`): scan the children left to right with the running
char offset `start_char`; at the first child whose char range wholly
contains `[n_start, n_end)` — that is, `n_start ≥ start_char` and
`n_end < start_char + inf.chars` — return it with both bounds shifted down
by `start_char`. -/
def findChild (n_start n_end : Nat) :
    List (TextInfo × NodeC) → Nat → Option (NodeC × Nat × Nat)
  | [], _ => none
  | (inf, nd) :: rest, start_char =>
    if start_char ≤ n_start ∧ n_end < start_char + inf.chars then
      some (nd, n_start - start_char, n_end - start_char)
    else findChild n_start n_end rest (start_char + inf.chars)

/-- The descent loop of `RopeSlice::new_with_range` (`src/slice.rs:39-61`):
starting from the given node, step into the unique child wholly containing
the range until no such child exists or a leaf is reached.  The returned
node and local char bounds are what the constructor stores (`node`,
`start_char := n_start`, `end_char := n_end`); the byte and line fields are
then populated by index conversion at the chosen subtree (`src/slice.rs:
63-72`). -/
def newWithRangeCore : NodeC → Nat → Nat → NodeC × Nat × Nat
  | .leaf t, n_start, n_end => (.leaf t, n_start, n_end)
  | .internal cs, n_start, n_end =>
    match hfc : findChild n_start n_end cs 0 with
    | some (nd, s1, e1) => newWithRangeCore nd s1 e1
    | none => (.internal cs, n_start, n_end)
termination_by n _ _ => sizeOf n
decreasing_by
  simp_wf
  have hmem : ∀ (l : List (TextInfo × NodeC)) (k : Nat) (nd : NodeC)
      (s1 e1 : Nat), findChild n_start n_end l k = some (nd, s1, e1) →
      ∃ inf, (inf, nd) ∈ l := by
    intro l
    induction l with
    | nil => intro k nd s1 e1 h; cases h
    | cons p rest ih =>
      intro k nd s1 e1 h
      obtain ⟨inf, nd1⟩ := p
      by_cases hcond : k ≤ n_start ∧ n_end < k + inf.chars
      · simp only [findChild, if_pos hcond, Option.some.injEq] at h
        have hnd : nd = nd1 := by
          have h1 := congrArg Prod.fst h
          simpa using h1.symm
        exact ⟨inf, by rw [hnd]; exact List.mem_cons_self _ _⟩
      · simp only [findChild, if_neg hcond] at h
        obtain ⟨inf1, hm⟩ := ih (k + inf.chars) nd s1 e1 h
        exact ⟨inf1, List.mem_cons_of_mem _ hm⟩
  obtain ⟨inf, hm⟩ := hmem cs 0 nd s1 e1 hfc
  have h1 := List.sizeOf_lt_of_mem hm
  have h2 : sizeOf nd < sizeOf (inf, nd) := by
    simp only [Prod.mk.sizeOf_spec]
    omega
  omega

/-- `RopeSlice` (`src/slice.rs:12`): a borrowed node plus the six boundary
counts. -/
structure RopeSlice where
  node : NodeC
  start_byte : Nat
  end_byte : Nat
  start_char : Nat
  end_char : Nat
  start_line_break : Nat
  end_line_break : Nat

/-- `RopeSlice::len_chars` (`src/slice.rs:84`). -/
def RopeSlice.lenChars (s : RopeSlice) : Nat :=
  s.end_char - s.start_char

/-- `RopeSlice::is_grapheme_boundary` (`src/slice.rs:199`): after the
bounds check (`none` models the panic), `0` and `len_chars()` are
boundaries unconditionally; otherwise defer to the node-level query at
`start_char + char_idx`.  `Node::is_grapheme_boundary` lives in `tree.rs`
(not under `src/`) and is passed explicitly as `ngb` (modelled from spec
§4.4.2). -/
def RopeSlice.isGraphemeBoundary (s : RopeSlice) (ngb : Nat → Bool)
    (char_idx : Nat) : Option Bool :=
  if char_idx ≤ s.lenChars then
    some (if char_idx = 0 ∨ char_idx = s.lenChars then true
      else ngb (s.start_char + char_idx))
  else none

/-- `RopeSlice::prev_grapheme_boundary` (`src/slice.rs:225`): after the
bounds check, query the node at `start_char + char_idx` and clamp a result
left of the window to `0`.  `Node::prev_grapheme_boundary` lives in
`tree.rs` (not under `src/`) and is passed explicitly as `nprev` (modelled
from spec §4.4.2: it returns the largest boundary strictly below its
argument, clamped to 0 — in particular a value `≤` its argument). -/
def RopeSlice.prevGraphemeBoundary (s : RopeSlice) (nprev : Nat → Nat)
    (char_idx : Nat) : Option Nat :=
  if char_idx ≤ s.lenChars then
    let boundary_idx := nprev (s.start_char + char_idx)
    some (if boundary_idx < s.start_char then 0
      else boundary_idx - s.start_char)
  else none

/-- `RopeSlice::next_grapheme_boundary` (`src/slice.rs:252`): after the
bounds check, query the node at `start_char + char_idx` and clamp a result
at or beyond `end_char` to `len_chars()`.  `Node::next_grapheme_boundary`
lives in `tree.rs` (not under `src/`) and is passed explicitly as `nnext`
(modelled from spec §4.4.2: it returns the smallest boundary strictly above
its argument, clamped to `char_count()` — in particular a value `≥` its
argument). -/
def RopeSlice.nextGraphemeBoundary (s : RopeSlice) (nnext : Nat → Nat)
    (char_idx : Nat) : Option Nat :=
  if char_idx ≤ s.lenChars then
    let boundary_idx := nnext (s.start_char + char_idx)
    some (if s.end_char ≤ boundary_idx then s.lenChars
      else boundary_idx - s.start_char)
  else none

/-! ## Grapheme-seam repair (`src/node.rs:263`) -/

/-- `Node::fix_info_left` (`src/node.rs:327`): walk down the leftmost
spine recomputing the first info slot at each level (`first_mut().unwrap()`
panics on an empty array; that call site is unreachable, and the model
leaves the node unchanged there). -/
def Node.fixInfoLeft : Node → Node
  | .empty => .empty
  | .leaf t => .leaf t
  | .internal info [] => .internal info []
  | .internal info (c0 :: rest) =>
    let c1 := c0.fixInfoLeft
    .internal (info.set 0 c1.textInfo) (c1 :: rest)

/-- `Node::fix_info_right` (`src/node.rs:343`): walk down the rightmost
spine recomputing the last info slot at each level. -/
def Node.fixInfoRight : Node → Node
  | .empty => .empty
  | .leaf t => .leaf t
  | .internal info children =>
    match hl : children.getLast? with
    | none => .internal info children
    | some cl =>
      let cl1 := cl.fixInfoRight
      .internal (info.set (info.length - 1) cl1.textInfo)
        (children.dropLast ++ [cl1])
termination_by n => sizeOf n
decreasing_by
  simp_wf
  have := List.sizeOf_lt_of_mem (List.mem_of_mem_getLast? hl)
  omega

/-- Write-back helper for the seam repair: in Rust the recursive
`fix_grapheme_seam` returns `&mut` references into the rightmost leaf of a
subtree and the string-level fix then mutates through them; the pure model
replaces that leaf's text explicitly instead. -/
def Node.setRightmostLeafText (t : List Char) : Node → Node
  | .empty => .empty
  | .leaf _ => .leaf t
  | .internal info children =>
    match hl : children.getLast? with
    | none => .internal info children
    | some cl =>
      .internal info (children.dropLast ++ [Node.setRightmostLeafText t cl])
termination_by n => sizeOf n
decreasing_by
  simp_wf
  have := List.sizeOf_lt_of_mem (List.mem_of_mem_getLast? hl)
  omega

/-- Write-back helper for the seam repair, leftmost-leaf side (see
`Node.setRightmostLeafText`). -/
def Node.setLeftmostLeafText (t : List Char) : Node → Node
  | .empty => .empty
  | .leaf _ => .leaf t
  | .internal info [] => .internal info []
  | .internal info (c0 :: rest) =>
    .internal info (Node.setLeftmostLeafText t c0 :: rest)

/-- `Node::fix_grapheme_seam` (`src/node.rs:263`): checks that a boundary
between two leaves (given as a byte position) does not split a grapheme
cluster, and fixes it if it does.

The string-level two-text fix (`fix_grapheme_seam` in `small_string_utils`,
not under `src/`) is passed explicitly as `fixStr`; modelled from the spec
(§4.4.4): it may move whole clusters between the two texts so a straddling
cluster lives in one of them.

The result is `some (handle?, node')`: `handle?` is the text of the leaf
whose `&mut SmallString` the source returns (`none` when the source returns
`None`), and `node'` the updated node.  An outer `none` models a panic
("Byte position given is not on a leaf boundary.", an `unwrap` of `None`,
or an out-of-bounds index). -/
def Node.fixGraphemeSeam
    (fixStr : List Char → List Char → List Char × List Char) :
    Node → Nat → Option (Option (List Char) × Node)
  | .empty, _ => some (none, .empty)
  | .leaf t, byte_pos =>
    if byte_pos = 0 ∨ byte_pos = strBytes t then some (some t, .leaf t)
    else none
  | .internal info children, byte_pos =>
    if byte_pos = 0 then
      match hc : children.get? 0 with
      | none => none
      | some c0 =>
        match Node.fixGraphemeSeam fixStr c0 byte_pos with
        | none => none
        | some (h, c1) => some (h, .internal info (children.set 0 c1))
    else if byte_pos = (combinedInfo info).bytes then
      match hc : children.getLast?, info.getLast? with
      | some cl, some il =>
        match Node.fixGraphemeSeam fixStr cl il.bytes with
        | none => none
        | some (h, cl1) =>
          some (h, .internal info (children.set (children.length - 1) cl1))
      | _, _ => none
    else
      match searchCombineInfo info (fun inf => decide (byte_pos ≤ inf.bytes)) with
      | none => none
      | some (child_i, start_info) =>
        match info.get? child_i with
        | none => none
        | some inf_ci =>
          if byte_pos - start_info.bytes = 0 ∨
              byte_pos - start_info.bytes = inf_ci.bytes then
            let child_l_i :=
              if byte_pos - start_info.bytes = 0 then child_i - 1 else child_i
            match info.get? child_l_i, hcl : children.get? child_l_i,
                hcr : children.get? (child_l_i + 1) with
            | some inf_l, some left_child, some right_child =>
              match Node.fixGraphemeSeam fixStr left_child inf_l.bytes,
                  Node.fixGraphemeSeam fixStr right_child 0 with
              | some (some tl, _), some (some tr, _) =>
                match fixStr tl tr with
                | (tl1, tr1) =>
                  let left2 :=
                    ((left_child.setRightmostLeafText tl1).fixInfoRight)
                  let right2 :=
                    ((right_child.setLeftmostLeafText tr1).fixInfoLeft)
                  some (none, .internal
                    ((info.set child_l_i left2.textInfo).set (child_l_i + 1)
                      right2.textInfo)
                    ((children.set child_l_i left2).set (child_l_i + 1)
                      right2))
              | _, _ => none
            | _, _, _ => none
          else
            match hc : children.get? child_i with
            | none => none
            | some child =>
              match Node.fixGraphemeSeam fixStr child
                  (byte_pos - start_info.bytes) with
              | none => none
              | some (h, child1) =>
                some (h, .internal info (children.set child_i child1))
termination_by n _ => sizeOf n
decreasing_by
  all_goals simp_wf
  · have := List.sizeOf_lt_of_mem (List.get?_mem hc)
    omega
  · have := List.sizeOf_lt_of_mem (List.mem_of_mem_getLast? hc)
    omega
  · have := List.sizeOf_lt_of_mem (List.get?_mem hcl)
    omega
  · have := List.sizeOf_lt_of_mem (List.get?_mem hcr)
    omega
  · have := List.sizeOf_lt_of_mem (List.get?_mem hc)
    omega

mutual

/-- The text represented by a child-array subtree (the spec's
`concat_leaves`, §8.1). -/
def NodeC.flatten : NodeC → List Char
  | .leaf t => t
  | .internal children => flattenAllC children

def flattenAllC : List (TextInfo × NodeC) → List Char
  | [] => []
  | (_, c) :: cs => c.flatten ++ flattenAllC cs

end

mutual

/-- Summary consistency for the child-array node (spec invariant 2, §3.4;
the analogue of `Node::verify_integrity`, `src/node.rs:241`): every info
slot equals its child's summary, recursively. -/
def NodeC.goodB : NodeC → Bool
  | .leaf _ => true
  | .internal children => goodAllC children

def goodAllC : List (TextInfo × NodeC) → Bool
  | [] => true
  | (inf, c) :: cs => (decide (inf = c.textInfo) && c.goodB) && goodAllC cs

end

/-! ## Theorems -/

theorem TextInfo.new_combine (a : TextInfo) : TextInfo.new.combine a = a := by
  cases a; simp [TextInfo.combine, TextInfo.new]

theorem TextInfo.combine_new (a : TextInfo) : a.combine TextInfo.new = a := by
  cases a; simp [TextInfo.combine, TextInfo.new]

theorem TextInfo.combine_assoc (a b c : TextInfo) :
    (a.combine b).combine c = a.combine (b.combine c) := by
  cases a; cases b; cases c
  simp [TextInfo.combine, Nat.add_assoc]

theorem strBytes_append (a b : List Char) :
    strBytes (a ++ b) = strBytes a + strBytes b := by
  simp [strBytes]

theorem TextInfo.fromStr_append (a b : List Char) :
    TextInfo.fromStr (a ++ b) = (TextInfo.fromStr a).combine (TextInfo.fromStr b) := by
  simp [TextInfo.fromStr, TextInfo.combine, strBytes, countLineBreaks]

theorem combinedInfo_nil : combinedInfo [] = TextInfo.new := rfl

theorem foldl_combine_start (a : TextInfo) (l : List TextInfo) :
    l.foldl TextInfo.combine a = a.combine (combinedInfo l) := by
  induction l generalizing a with
  | nil => simp [combinedInfo, TextInfo.combine_new]
  | cons x xs ih =>
    simp only [List.foldl_cons]
    rw [ih (a.combine x), TextInfo.combine_assoc]
    have hcons : combinedInfo (x :: xs) = x.combine (combinedInfo xs) := by
      show List.foldl TextInfo.combine TextInfo.new (x :: xs) = _
      rw [List.foldl_cons, ih (TextInfo.new.combine x), TextInfo.new_combine]
    rw [hcons]

theorem combinedInfo_cons (x : TextInfo) (xs : List TextInfo) :
    combinedInfo (x :: xs) = x.combine (combinedInfo xs) := by
  show List.foldl TextInfo.combine TextInfo.new (x :: xs) = _
  rw [List.foldl_cons, foldl_combine_start, TextInfo.new_combine]

theorem combinedInfo_append (a b : List TextInfo) :
    combinedInfo (a ++ b) = (combinedInfo a).combine (combinedInfo b) := by
  induction a with
  | nil => simp [combinedInfo_nil, TextInfo.new_combine]
  | cons x xs ih =>
    simp only [List.cons_append, combinedInfo_cons, ih, TextInfo.combine_assoc]

theorem searchCombineGo_some_iff (p : TextInfo → Bool) (l : List TextInfo)
    (accum : TextInfo) (i : Nat) (acc : TextInfo) :
    searchCombineGo p l accum = some (i, acc) ↔
      i < l.length ∧
      acc = accum.combine (combinedInfo (l.take i)) ∧
      p (accum.combine (combinedInfo (l.take (i + 1)))) = true ∧
      ∀ j < i, p (accum.combine (combinedInfo (l.take (j + 1)))) = false := by
  induction l generalizing accum i with
  | nil => simp [searchCombineGo]
  | cons inf rest ih =>
    cases hp : p (accum.combine inf) with
    | true =>
      simp only [searchCombineGo, hp, if_true, Option.some.injEq, Prod.mk.injEq]
      constructor
      · rintro ⟨rfl, rfl⟩
        refine ⟨Nat.succ_pos _, ?_, ?_, ?_⟩
        · simp [combinedInfo_nil, TextInfo.combine_new]
        · simpa [combinedInfo_cons, combinedInfo_nil, TextInfo.combine_new] using hp
        · intro j hj; omega
      · rintro ⟨h1, h2, h3, h4⟩
        cases i with
        | zero =>
          refine ⟨rfl, ?_⟩
          simpa [combinedInfo_nil, TextInfo.combine_new] using h2.symm
        | succ i =>
          have h0 := h4 0 (Nat.succ_pos _)
          simp [combinedInfo_cons, combinedInfo_nil, TextInfo.combine_new, hp] at h0
    | false =>
      simp only [searchCombineGo, hp, Bool.false_eq_true, if_false]
      constructor
      · intro h
        rcases Option.map_eq_some'.mp h with ⟨⟨i', acc'⟩, hgo, heq⟩
        have hi : i = i' + 1 := by
          have := congrArg Prod.fst heq; simpa using this.symm
        have hacc : acc = acc' := by
          have := congrArg Prod.snd heq; simpa using this.symm
        subst hi; subst hacc
        rcases (ih (accum.combine inf) i').mp hgo with ⟨g1, g2, g3, g4⟩
        refine ⟨by simpa using Nat.succ_lt_succ g1, ?_, ?_, ?_⟩
        · simpa [List.take_succ_cons, combinedInfo_cons, TextInfo.combine_assoc] using g2
        · simpa [List.take_succ_cons, combinedInfo_cons, TextInfo.combine_assoc] using g3
        · intro j hj
          cases j with
          | zero =>
            simpa [combinedInfo_cons, combinedInfo_nil, TextInfo.combine_new] using hp
          | succ j =>
            have := g4 j (by omega)
            simpa [List.take_succ_cons, combinedInfo_cons, TextInfo.combine_assoc] using this
      · rintro ⟨h1, h2, h3, h4⟩
        cases i with
        | zero =>
          exfalso
          simp [combinedInfo_cons, combinedInfo_nil, TextInfo.combine_new, hp] at h3
        | succ i =>
          have hgo : searchCombineGo p rest (accum.combine inf) = some (i, acc) := by
            refine (ih (accum.combine inf) i).mpr ⟨by simpa using h1, ?_, ?_, ?_⟩
            · simpa [List.take_succ_cons, combinedInfo_cons, TextInfo.combine_assoc] using h2
            · simpa [List.take_succ_cons, combinedInfo_cons, TextInfo.combine_assoc] using h3
            · intro j hj
              have := h4 (j + 1) (by omega)
              simpa [List.take_succ_cons, combinedInfo_cons, TextInfo.combine_assoc] using this
          rw [hgo]; rfl

theorem searchCombineGo_none_iff (p : TextInfo → Bool) (l : List TextInfo)
    (accum : TextInfo) :
    searchCombineGo p l accum = none ↔
      ∀ j < l.length, p (accum.combine (combinedInfo (l.take (j + 1)))) = false := by
  induction l generalizing accum with
  | nil => simp [searchCombineGo]
  | cons inf rest ih =>
    cases hp : p (accum.combine inf) with
    | true =>
      simp only [searchCombineGo, hp, if_true]
      constructor
      · intro h; cases h
      · intro h
        have h0 := h 0 (Nat.succ_pos _)
        simp [combinedInfo_cons, combinedInfo_nil, TextInfo.combine_new, hp] at h0
    | false =>
      simp only [searchCombineGo, hp, Bool.false_eq_true, if_false, Option.map_eq_none']
      rw [ih]
      constructor
      · intro h j hj
        cases j with
        | zero =>
          simpa [combinedInfo_cons, combinedInfo_nil, TextInfo.combine_new] using hp
        | succ j =>
          have hj' : j < rest.length := by simp at hj; omega
          have := h j hj'
          simpa [List.take_succ_cons, combinedInfo_cons, TextInfo.combine_assoc] using this
      · intro h j hj
        have hj' : j + 1 < (inf :: rest).length := by simp; omega
        have := h (j + 1) hj'
        simpa [List.take_succ_cons, combinedInfo_cons, TextInfo.combine_assoc] using this

/-- prefix of the combined infos, one slot further: peel off slot `i`. -/
theorem combinedInfo_take_succ (l : List TextInfo) (i : Nat) (inf : TextInfo)
    (h : l.get? i = some inf) :
    combinedInfo (l.take (i + 1)) = (combinedInfo (l.take i)).combine inf := by
  rw [List.take_succ, ← List.get?_eq_getElem?, h]
  simp [combinedInfo_append, combinedInfo_cons, combinedInfo_nil, TextInfo.combine_new]

/-- C4: `search_combine` scans the info slots left to right accumulating the
combined prefix and returns `(i, prefix_before_i)` for the first index `i`
such that the predicate holds of the prefix combined with slot `i` (that is,
of the combination of slots `0..=i`); `prefix_before_i` is the combination of
slots `0..i`.  If no such index exists — in particular when the array is
empty — the operation fails with the `MalformedPredicate` panic, modelled as
`none`. -/
theorem c4_search_combine_first_hit (info : List TextInfo) (p : TextInfo → Bool)
    (i : Nat) (acc : TextInfo) :
    (searchCombineInfo info p = some (i, acc) ↔
      i < info.length ∧
      acc = combinedInfo (info.take i) ∧
      p (combinedInfo (info.take (i + 1))) = true ∧
      ∀ j < i, p (combinedInfo (info.take (j + 1))) = false) ∧
    (searchCombineInfo info p = none ↔
      ∀ j < info.length, p (combinedInfo (info.take (j + 1))) = false) := by
  constructor
  · rw [searchCombineInfo, searchCombineGo_some_iff]
    simp [TextInfo.new_combine]
  · rw [searchCombineInfo, searchCombineGo_none_iff]
    simp [TextInfo.new_combine]

theorem charPosToBytePos_eq_take (l : List Char) (i : Nat) :
    charPosToBytePos l i = strBytes (l.take i) := by
  induction l generalizing i with
  | nil => cases i <;> simp [charPosToBytePos, strBytes]
  | cons c cs ih =>
    cases i with
    | zero => simp [charPosToBytePos, strBytes]
    | succ i => simp [charPosToBytePos, strBytes, ih i]

theorem bytePosToCharPos_zero (l : List Char) : bytePosToCharPos l 0 = 0 := by
  cases l with
  | nil => rfl
  | cons c cs => simp [bytePosToCharPos, Char.utf8Size_pos]

theorem bytePosToCharPos_append (x y : List Char) (b : Nat) :
    bytePosToCharPos (x ++ y) (strBytes x + b) = x.length + bytePosToCharPos y b := by
  induction x with
  | nil => simp [strBytes]
  | cons c cs ih =>
    have hcs : strBytes (c :: cs) = c.utf8Size + strBytes cs := by
      simp [strBytes]
    have hnotlt : ¬ (strBytes (c :: cs) + b < c.utf8Size) := by
      rw [hcs]; omega
    simp only [List.cons_append, bytePosToCharPos, if_neg hnotlt, List.append_eq]
    have harith : strBytes (c :: cs) + b - c.utf8Size = strBytes cs + b := by
      rw [hcs]; omega
    rw [harith, ih]
    simp [Nat.add_assoc, Nat.add_comm, Nat.add_left_comm]

theorem bytePosToCharPos_append_left (x y : List Char) (b : Nat)
    (hb : b ≤ strBytes x) :
    bytePosToCharPos (x ++ y) b = bytePosToCharPos x b := by
  induction x generalizing b with
  | nil =>
    have : b = 0 := by
      simpa [strBytes] using hb
    subst this
    simp [bytePosToCharPos_zero]
  | cons c cs ih =>
    by_cases hlt : b < c.utf8Size
    · simp [bytePosToCharPos, hlt]
    · have hb' : b - c.utf8Size ≤ strBytes cs := by
        have : strBytes (c :: cs) = c.utf8Size + strBytes cs := by simp [strBytes]
        omega
      simp only [List.cons_append, bytePosToCharPos, if_neg hlt, List.append_eq]
      rw [ih _ hb']

/-- The leaf-level round trip: walking back the byte offset of the `i`-th
scalar recovers `i`. -/
theorem bytePosToCharPos_charPosToBytePos (l : List Char) (i : Nat)
    (hi : i ≤ l.length) :
    bytePosToCharPos l (charPosToBytePos l i) = i := by
  have hsplit : l = l.take i ++ l.drop i := (List.take_append_drop i l).symm
  rw [charPosToBytePos_eq_take]
  calc bytePosToCharPos l (strBytes (l.take i))
      = bytePosToCharPos (l.take i ++ l.drop i) (strBytes (l.take i) + 0) := by
        rw [← hsplit, Nat.add_zero]
    _ = (l.take i).length + bytePosToCharPos (l.drop i) 0 :=
        bytePosToCharPos_append _ _ 0
    _ = i := by
        rw [bytePosToCharPos_zero, List.length_take]
        omega

theorem strBytes_take_le (l : List Char) (i : Nat) :
    strBytes (l.take i) ≤ strBytes l := by
  conv_rhs => rw [← List.take_append_drop i l]
  rw [strBytes_append]
  omega

theorem flattenAll_append (a b : List Node) :
    flattenAll (a ++ b) = flattenAll a ++ flattenAll b := by
  induction a with
  | nil => simp [flattenAll]
  | cons c cs ih => simp [flattenAll, ih]

theorem goodAll_of_mem {cs : List Node} (h : goodAll cs = true) {c : Node}
    (hc : c ∈ cs) : c.goodB = true := by
  induction cs with
  | nil => cases hc
  | cons x xs ih =>
    simp only [goodAll, Bool.and_eq_true] at h
    rcases List.mem_cons.mp hc with rfl | hc'
    · exact h.1
    · exact ih h.2 hc'

theorem sizeOf_lt_of_get? {l : List Node} {i : Nat} {a : Node}
    (h : l.get? i = some a) : sizeOf a < sizeOf l :=
  List.sizeOf_lt_of_mem (List.get?_mem h)

theorem combinedInfo_map_fromStr (cs : List Node)
    (h : ∀ c ∈ cs, c.textInfo = TextInfo.fromStr c.flatten) :
    combinedInfo (cs.map Node.textInfo) = TextInfo.fromStr (flattenAll cs) := by
  induction cs with
  | nil => rfl
  | cons c cs ih =>
    simp only [List.map_cons, combinedInfo_cons, flattenAll]
    rw [TextInfo.fromStr_append, h c (List.mem_cons_self c cs),
      ih (fun x hx => h x (List.mem_cons_of_mem c hx))]

/-- Summary consistency: on a tree satisfying `verify_integrity`, the summary
of a node is the metric scan of its flattened text. -/
theorem Node.textInfo_eq_fromStr (n : Node) (h : n.goodB = true) :
    n.textInfo = TextInfo.fromStr n.flatten := by
  match n with
  | .empty => rfl
  | .leaf t => rfl
  | .internal info children =>
    simp only [Node.goodB, Bool.and_eq_true, decide_eq_true_eq] at h
    obtain ⟨hinfo, hall⟩ := h
    show combinedInfo info = TextInfo.fromStr (flattenAll children)
    rw [hinfo]
    exact combinedInfo_map_fromStr children
      (fun c hc =>
        have : sizeOf c < sizeOf children := List.sizeOf_lt_of_mem hc
        Node.textInfo_eq_fromStr c (goodAll_of_mem hall hc))
termination_by sizeOf n
decreasing_by
  simp_wf
  omega


theorem charPosToBytePos_zero (l : List Char) : charPosToBytePos l 0 = 0 := by
  cases l <;> rfl

theorem searchCombineInfo_success (info : List TextInfo) (p : TextInfo → Bool)
    (hp : p (combinedInfo info) = true) (hne : info ≠ []) :
    ∃ ci acc, searchCombineInfo info p = some (ci, acc) := by
  cases hs : searchCombineInfo info p with
  | some r => exact ⟨r.1, r.2, by simpa using hs⟩
  | none =>
    exfalso
    have hall := (searchCombineGo_none_iff p info TextInfo.new).mp hs
    have hlen : 0 < info.length := List.length_pos.mpr hne
    have hlast := hall (info.length - 1) (by omega)
    rw [show info.length - 1 + 1 = info.length by omega, List.take_length,
      TextInfo.new_combine, hp] at hlast
    cases hlast

/-- Unpack a successful `search_combine` over a consistent internal node:
the chosen child, its info slot, the flattened decomposition around it, and
the predicate facts at the hit. -/
theorem internal_search_analysis (info : List TextInfo) (children : List Node)
    (hinfo : info = children.map Node.textInfo) (hall : goodAll children = true)
    {p : TextInfo → Bool} {ci : Nat} {acc : TextInfo}
    (hs : searchCombineInfo info p = some (ci, acc)) :
    ∃ child inf,
      children.get? ci = some child ∧
      info.get? ci = some inf ∧
      child.goodB = true ∧
      inf = TextInfo.fromStr child.flatten ∧
      acc = TextInfo.fromStr (flattenAll (children.take ci)) ∧
      flattenAll children =
        flattenAll (children.take ci) ++ child.flatten ++
          flattenAll (children.drop (ci + 1)) ∧
      p (acc.combine inf) = true ∧
      (0 < ci → p acc = false) := by
  have hfacts := (searchCombineGo_some_iff p info TextInfo.new ci acc).mp hs
  rw [TextInfo.new_combine] at hfacts
  obtain ⟨hci, hacc, hhit, hmiss⟩ := hfacts
  simp only [TextInfo.new_combine] at hhit hmiss
  have hci' : ci < children.length := by
    rw [hinfo, List.length_map] at hci; exact hci
  have hcget : children.get? ci = some (children.get ⟨ci, hci'⟩) :=
    List.get?_eq_get hci'
  set child := children.get ⟨ci, hci'⟩ with hchilddef
  have higet : info.get? ci = some child.textInfo := by
    rw [hinfo, List.get?_map, hcget]; rfl
  have hcgood : child.goodB = true := goodAll_of_mem hall (List.get?_mem hcget)
  have hchildflat : child.textInfo = TextInfo.fromStr child.flatten :=
    Node.textInfo_eq_fromStr child hcgood
  have haccflat : acc = TextInfo.fromStr (flattenAll (children.take ci)) := by
    rw [hacc, hinfo, ← List.map_take]
    exact combinedInfo_map_fromStr _ (fun c hc =>
      Node.textInfo_eq_fromStr c (goodAll_of_mem hall (List.mem_of_mem_take hc)))
  have hdecomp : flattenAll children =
      flattenAll (children.take ci) ++ child.flatten ++
        flattenAll (children.drop (ci + 1)) := by
    conv_lhs => rw [← List.take_append_drop ci children]
    rw [List.drop_eq_getElem_cons hci', flattenAll_append]
    have : children[ci] = child := by
      rw [hchilddef, List.get_eq_getElem]
    rw [this, List.append_assoc]
    rfl
  have hhit' : p (acc.combine child.textInfo) = true := by
    rw [combinedInfo_take_succ info ci child.textInfo higet, ← hacc] at hhit
    exact hhit
  have hmiss' : 0 < ci → p acc = false := by
    intro h0
    have := hmiss (ci - 1) (by omega)
    rw [show ci - 1 + 1 = ci by omega, ← hacc] at this
    exact this
  exact ⟨child, child.textInfo, hcget, higet, hcgood, hchildflat, haccflat,
    hdecomp, hhit', hmiss'⟩

/-- On a consistent subtree, `char_to_byte` computes the byte offset of the
`i`-th scalar of the flattened text. -/
theorem Node.charToByte_flatten (n : Node) (hg : n.goodB = true) (i : Nat)
    (hi : i ≤ n.flatten.length) :
    n.charToByte i = some (charPosToBytePos n.flatten i) := by
  match n with
  | .empty =>
    have h0 : i = 0 := by simpa [Node.flatten] using hi
    subst h0
    simp [Node.charToByte, Node.flatten, charPosToBytePos_zero]
  | .leaf t =>
    simp [Node.charToByte, Node.flatten]
  | .internal info children =>
    have htot := Node.textInfo_eq_fromStr (.internal info children) hg
    simp only [Node.goodB, Bool.and_eq_true, decide_eq_true_eq] at hg
    obtain ⟨hinfo, hall⟩ := hg
    simp only [Node.flatten] at hi ⊢
    by_cases hi0 : i = 0
    · subst hi0
      simp [Node.charToByte, charPosToBytePos_zero]
    · have htotc : (combinedInfo info).chars = (flattenAll children).length := by
        have h := congrArg TextInfo.chars htot
        simpa [Node.textInfo, TextInfo.fromStr, Node.flatten] using h
      have hne : info ≠ [] := by
        intro h
        rw [h] at htotc
        simp only [combinedInfo_nil, TextInfo.new] at htotc
        omega
      have hptotal : decide (i ≤ (combinedInfo info).chars) = true := by
        simp only [decide_eq_true_eq]
        omega
      obtain ⟨ci, acc, hs⟩ := searchCombineInfo_success info
        (fun inf => decide (i ≤ inf.chars)) hptotal hne
      obtain ⟨child, inf, hcget, higet, hcgood, hinf, haccflat, hdecomp,
        hhit, hmiss⟩ := internal_search_analysis info children hinfo hall hs
      have hhit' : i ≤ acc.chars + inf.chars := by
        simpa [TextInfo.combine] using hhit
      have hlow : acc.chars < i := by
        rcases Nat.eq_zero_or_pos ci with h0 | h0
        · have : acc.chars = 0 := by
            subst h0
            simp [haccflat, flattenAll, TextInfo.fromStr, strBytes,
              countLineBreaks]
          omega
        · have hm := hmiss h0
          simp only [decide_eq_false_iff_not] at hm
          omega
      have hAchars : acc.chars = (flattenAll (children.take ci)).length := by
        simp [haccflat, TextInfo.fromStr]
      have hAbytes : acc.bytes = strBytes (flattenAll (children.take ci)) := by
        simp [haccflat, TextInfo.fromStr]
      have hBchars : inf.chars = child.flatten.length := by
        simp [hinf, TextInfo.fromStr]
      have hBbytes : inf.bytes = strBytes child.flatten := by
        simp [hinf, TextInfo.fromStr]
      by_cases heq : i = acc.chars + inf.chars
      · simp only [Node.charToByte, if_neg hi0, hs, higet, if_pos heq]
        rw [charPosToBytePos_eq_take, hdecomp]
        have hlen : i =
            (flattenAll (children.take ci) ++ child.flatten).length := by
          rw [List.length_append, ← hAchars, ← hBchars, heq]
        rw [hlen, List.take_left]
        rw [strBytes_append, ← hAbytes, ← hBbytes]
      · have hlt : i < acc.chars + inf.chars := Nat.lt_of_le_of_ne hhit' heq
        have hi'lt : i - acc.chars < child.flatten.length := by
          rw [← hBchars]; omega
        have hrec := Node.charToByte_flatten child hcgood (i - acc.chars)
          (Nat.le_of_lt hi'lt)
        simp only [Node.charToByte, if_neg hi0, hs, higet, if_neg heq]
        split
        · next hnone => rw [hcget] at hnone; cases hnone
        · next child' hsome =>
          rw [hcget] at hsome
          injection hsome with hsome
          subst hsome
          rw [hrec]
          simp only [Option.map_some']
          rw [charPosToBytePos_eq_take, hdecomp, List.append_assoc]
          have hisplit : i =
              (flattenAll (children.take ci)).length + (i - acc.chars) := by
            rw [← hAchars]; omega
          conv_rhs => rw [hisplit, charPosToBytePos_eq_take, List.take_append]
          rw [List.take_append_of_le_length (Nat.le_of_lt hi'lt),
            strBytes_append, ← hAbytes]
termination_by sizeOf n
decreasing_by
  simp_wf
  have := List.sizeOf_lt_of_mem (List.get?_mem hcget)
  omega

/-- On a consistent subtree, the modelled `byte_to_char` walks a byte
position back to the index of the scalar containing it. -/
theorem Node.byteToChar_flatten (n : Node) (hg : n.goodB = true) (b : Nat)
    (hb : b ≤ strBytes n.flatten) :
    n.byteToChar b = some (bytePosToCharPos n.flatten b) := by
  match n with
  | .empty =>
    have h0 : b = 0 := by simpa [Node.flatten, strBytes] using hb
    subst h0
    simp [Node.byteToChar, Node.flatten, bytePosToCharPos_zero]
  | .leaf t => simp [Node.byteToChar, Node.flatten]
  | .internal info children =>
    have htot := Node.textInfo_eq_fromStr (.internal info children) hg
    simp only [Node.goodB, Bool.and_eq_true, decide_eq_true_eq] at hg
    obtain ⟨hinfo, hall⟩ := hg
    simp only [Node.flatten] at hb ⊢
    by_cases hb0 : b = 0
    · subst hb0
      simp [Node.byteToChar, bytePosToCharPos_zero]
    · have htotb : (combinedInfo info).bytes = strBytes (flattenAll children) := by
        have h := congrArg TextInfo.bytes htot
        simpa [Node.textInfo, TextInfo.fromStr, Node.flatten] using h
      have hne : info ≠ [] := by
        intro h
        rw [h] at htotb
        simp only [combinedInfo_nil, TextInfo.new] at htotb
        omega
      have hptotal : decide (b ≤ (combinedInfo info).bytes) = true := by
        simp only [decide_eq_true_eq]
        omega
      obtain ⟨ci, acc, hs⟩ := searchCombineInfo_success info
        (fun inf => decide (b ≤ inf.bytes)) hptotal hne
      obtain ⟨child, inf, hcget, higet, hcgood, hinf, haccflat, hdecomp,
        hhit, hmiss⟩ := internal_search_analysis info children hinfo hall hs
      have hhit' : b ≤ acc.bytes + inf.bytes := by
        simpa [TextInfo.combine] using hhit
      have hlow : acc.bytes < b := by
        rcases Nat.eq_zero_or_pos ci with h0 | h0
        · have : acc.bytes = 0 := by
            subst h0
            simp [haccflat, flattenAll, TextInfo.fromStr, strBytes,
              countLineBreaks]
          omega
        · have hm := hmiss h0
          simp only [decide_eq_false_iff_not] at hm
          omega
      have hAchars : acc.chars = (flattenAll (children.take ci)).length := by
        simp [haccflat, TextInfo.fromStr]
      have hAbytes : acc.bytes = strBytes (flattenAll (children.take ci)) := by
        simp [haccflat, TextInfo.fromStr]
      have hBchars : inf.chars = child.flatten.length := by
        simp [hinf, TextInfo.fromStr]
      have hBbytes : inf.bytes = strBytes child.flatten := by
        simp [hinf, TextInfo.fromStr]
      by_cases heq : b = acc.bytes + inf.bytes
      · simp only [Node.byteToChar, if_neg hb0, hs, higet, if_pos heq]
        rw [hdecomp]
        have hbeq : b =
            strBytes (flattenAll (children.take ci) ++ child.flatten) + 0 := by
          rw [strBytes_append, Nat.add_zero, ← hAbytes, ← hBbytes]
          exact heq
        conv_rhs => rw [hbeq]
        rw [bytePosToCharPos_append]
        simp only [bytePosToCharPos_zero, Nat.add_zero, List.length_append]
        rw [hAchars, hBchars]
      · have hlt : b < acc.bytes + inf.bytes := Nat.lt_of_le_of_ne hhit' heq
        have hb'le : b - acc.bytes ≤ strBytes child.flatten := by
          rw [← hBbytes]; omega
        have hrec := Node.byteToChar_flatten child hcgood (b - acc.bytes) hb'le
        simp only [Node.byteToChar, if_neg hb0, hs, higet, if_neg heq]
        split
        · next hnone => rw [hcget] at hnone; cases hnone
        · next child' hsome =>
          rw [hcget] at hsome
          injection hsome with hsome
          subst hsome
          rw [hrec]
          simp only [Option.map_some']
          rw [hdecomp, List.append_assoc]
          have hbsplit : b =
              strBytes (flattenAll (children.take ci)) + (b - acc.bytes) := by
            rw [← hAbytes]; omega
          conv_rhs => rw [hbsplit]
          rw [bytePosToCharPos_append, bytePosToCharPos_append_left _ _ _ hb'le,
            hAchars]
termination_by sizeOf n
decreasing_by
  simp_wf
  have := List.sizeOf_lt_of_mem (List.get?_mem hcget)
  omega

/-- C5: on a tree whose info slots equal the summaries of the corresponding
child subtrees (`verify_integrity`), for every char index `i ≤ char_count()`,
`char_to_byte(i)` returns the byte offset of the `i`-th scalar of the
concatenated leaf text — the leaf case being the UTF-8 scan, the internal
case the `search_combine`-on-scalars scheme with the node-boundary shortcut
that `Node.charToByte` transcribes from `src/node.rs:66`. -/
theorem c5_char_to_byte_is_flat_offset (n : Node) (hg : n.goodB = true)
    (i : Nat) (hi : i ≤ n.charCount) :
    n.charToByte i = some (charPosToBytePos n.flatten i) := by
  have hlen : n.charCount = n.flatten.length := by
    have h := congrArg TextInfo.chars (Node.textInfo_eq_fromStr n hg)
    simpa [Node.charCount, TextInfo.fromStr] using h
  exact Node.charToByte_flatten n hg i (hlen ▸ hi)

theorem c5_witness :
    Node.charToByte
        (Node.internal [TextInfo.fromStr ['a', 'b'], TextInfo.fromStr ['c', 'd']]
          [Node.leaf ['a', 'b'], Node.leaf ['c', 'd']]) 3 =
      some (charPosToBytePos
        (Node.flatten
          (Node.internal [TextInfo.fromStr ['a', 'b'], TextInfo.fromStr ['c', 'd']]
            [Node.leaf ['a', 'b'], Node.leaf ['c', 'd']])) 3) :=
  c5_char_to_byte_is_flat_offset
    (Node.internal [TextInfo.fromStr ['a', 'b'], TextInfo.fromStr ['c', 'd']]
      [Node.leaf ['a', 'b'], Node.leaf ['c', 'd']])
    (by decide) 3 (by decide)

/-- C6: on a tree whose info slots are consistent with its children, for
every valid char index `i ≤ char_count()`, `byte_to_char(char_to_byte(i))`
equals `i` (with the spec-modelled `byte_to_char`, the source function being
an `unimplemented!()` stub). -/
theorem c6_byte_to_char_round_trip (n : Node) (hg : n.goodB = true)
    (i : Nat) (hi : i ≤ n.charCount) :
    (n.charToByte i).bind n.byteToChar = some i := by
  have hlen : n.charCount = n.flatten.length := by
    have h := congrArg TextInfo.chars (Node.textInfo_eq_fromStr n hg)
    simpa [Node.charCount, TextInfo.fromStr] using h
  have hi' : i ≤ n.flatten.length := hlen ▸ hi
  have h1 := Node.charToByte_flatten n hg i hi'
  rw [h1, Option.some_bind]
  have hble : charPosToBytePos n.flatten i ≤ strBytes n.flatten := by
    rw [charPosToBytePos_eq_take]
    exact strBytes_take_le _ _
  rw [Node.byteToChar_flatten n hg _ hble,
    bytePosToCharPos_charPosToBytePos n.flatten i hi']

theorem c6_witness :
    (Node.charToByte
        (Node.internal [TextInfo.fromStr ['a', 'b'], TextInfo.fromStr ['c', 'd']]
          [Node.leaf ['a', 'b'], Node.leaf ['c', 'd']]) 4).bind
      (Node.byteToChar
        (Node.internal [TextInfo.fromStr ['a', 'b'], TextInfo.fromStr ['c', 'd']]
          [Node.leaf ['a', 'b'], Node.leaf ['c', 'd']])) = some 4 :=
  c6_byte_to_char_round_trip
    (Node.internal [TextInfo.fromStr ['a', 'b'], TextInfo.fromStr ['c', 'd']]
      [Node.leaf ['a', 'b'], Node.leaf ['c', 'd']])
    (by decide) 4 (by decide)

theorem removeLoop_split {α : Type} :
    ∀ (n : Nat) (src dst : List α) (k : Nat), src.length - k = n →
      removeLoop n k (src, dst) = (src.take k, dst ++ src.drop k) := by
  intro n
  induction n with
  | zero =>
    intro src dst k h
    have hk : src.length ≤ k := by omega
    simp [removeLoop, List.take_of_length_le hk, List.drop_eq_nil_of_le hk]
  | succ n ih =>
    intro src dst k h
    have hk : k < src.length := by omega
    simp only [removeLoop, List.get?_eq_get hk]
    have hlen : (src.eraseIdx k).length - k = n := by
      rw [List.length_eraseIdx, if_pos hk]; omega
    rw [ih (src.eraseIdx k) (dst ++ [src.get ⟨k, hk⟩]) k hlen]
    have htakelen : (src.take k).length = k := by
      rw [List.length_take]; omega
    have htake : (src.eraseIdx k).take k = src.take k := by
      rw [List.eraseIdx_eq_take_drop_succ,
        List.take_append_of_le_length (by omega), List.take_take]
      congr 1
      omega
    have hdrop : (src.eraseIdx k).drop k = src.drop (k + 1) := by
      rw [List.eraseIdx_eq_take_drop_succ]
      generalize hA : src.take k = A
      have hAl : A.length = k := by rw [← hA]; exact htakelen
      rw [← hAl, List.drop_left]
    rw [htake, hdrop, List.append_assoc]
    have hcons : [src.get ⟨k, hk⟩] ++ src.drop (k + 1) = src.drop k := by
      rw [List.drop_eq_getElem_cons hk, List.get_eq_getElem]
      rfl
    rw [hcons]

theorem insertIdx_append_left {α : Type} (i : Nat) (a : α) :
    ∀ (xs ys : List α), i ≤ xs.length →
      (xs ++ ys).insertIdx i a = xs.insertIdx i a ++ ys := by
  induction i with
  | zero => intro xs ys _; simp [List.insertIdx]
  | succ i ih =>
    intro xs ys h
    match xs with
    | [] => simp at h
    | x :: xs =>
      simp only [List.cons_append, List.insertIdx_succ_cons]
      rw [ih xs ys (by simpa using h)]

theorem dropLast_append_getLastD {α : Type} (l : List α) (d : α) (h : l ≠ []) :
    l.dropLast ++ [l.getLastD d] = l := by
  have hg : l.getLastD d = l.getLast h := by
    rw [List.getLastD_eq_getLast?, List.getLast?_eq_getLast l h]
    rfl
  rw [hg]
  exact List.dropLast_concat_getLast h

/-- C2: on a full internal node (`MAX_CHILDREN = 16` children) whose insert
into child `child_i` produced a residual node, `Node::insert` splits: the
residual is placed at position `child_i + 1` of the ordered child sequence
(the previous last child is popped to make room when `child_i < len - 1`,
and the residual itself serves as the overflow item when
`child_i = len - 1`), and the resulting 17-item sequence is partitioned in
order into a left node of `⌈(len+1)/2⌉ = 9` children kept in place and a
returned right node of `⌊(len+1)/2⌋ = 8` children. -/
theorem c2_full_internal_insert_splits (info : List TextInfo)
    (children : List Node) (child_i : Nat) (r_node : Node)
    (hilen : info.length = MAX_CHILDREN)
    (hclen : children.length = MAX_CHILDREN)
    (hci : child_i < MAX_CHILDREN) :
    ∃ linfo lch rinfo rch,
      internalInsertResidual info children child_i r_node =
        ((linfo, lch), some (rinfo, rch)) ∧
      linfo ++ rinfo = info.insertIdx (child_i + 1) r_node.textInfo ∧
      lch ++ rch = children.insertIdx (child_i + 1) r_node ∧
      linfo.length = (MAX_CHILDREN + 2) / 2 ∧
      lch.length = (MAX_CHILDREN + 2) / 2 ∧
      rinfo.length = (MAX_CHILDREN + 1) / 2 ∧
      rch.length = (MAX_CHILDREN + 1) / 2 := by
  have hfull' : ¬ children.length < MAX_CHILDREN := by omega
  rw [MAX_CHILDREN] at hilen hclen hci
  have hne : info ≠ [] := by
    intro h; rw [h] at hilen; simp at hilen
  have hnec : children ≠ [] := by
    intro h; rw [h] at hclen; simp at hclen
  by_cases hlt : child_i < children.length - 1
  · have hci15 : child_i + 1 ≤ 15 := by omega
    have hil2 : (info.dropLast.insertIdx (child_i + 1) r_node.textInfo).length = 16 := by
      rw [List.length_insertIdx _ _ (by rw [List.length_dropLast, hilen]; omega),
        List.length_dropLast, hilen]
    have hcl2 : (children.dropLast.insertIdx (child_i + 1) r_node).length = 16 := by
      rw [List.length_insertIdx _ _ (by rw [List.length_dropLast, hclen]; omega),
        List.length_dropLast, hclen]
    have hcomp : internalInsertResidual info children child_i r_node =
        (((info.dropLast.insertIdx (child_i + 1) r_node.textInfo).take 9,
          (children.dropLast.insertIdx (child_i + 1) r_node).take 9),
         some ((info.dropLast.insertIdx (child_i + 1) r_node.textInfo).drop 9 ++
            [info.getLastD TextInfo.new],
          (children.dropLast.insertIdx (child_i + 1) r_node).drop 9 ++
            [children.getLastD Node.empty])) := by
      simp only [internalInsertResidual, if_neg hfull', if_pos hlt, hcl2]
      norm_num
      rw [removeLoop_split 7 _ [] 9 (by rw [hil2]),
        removeLoop_split 7 _ [] 9 (by rw [hcl2])]
      simp
    refine ⟨_, _, _, _, hcomp, ?_, ?_, ?_, ?_, ?_, ?_⟩
    · rw [← List.append_assoc, List.take_append_drop]
      conv_rhs => rw [← dropLast_append_getLastD info TextInfo.new hne]
      rw [insertIdx_append_left (child_i + 1) r_node.textInfo info.dropLast
        [info.getLastD TextInfo.new]
        (by rw [List.length_dropLast, hilen]; omega)]
    · rw [← List.append_assoc, List.take_append_drop]
      conv_rhs => rw [← dropLast_append_getLastD children Node.empty hnec]
      rw [insertIdx_append_left (child_i + 1) r_node children.dropLast
        [children.getLastD Node.empty]
        (by rw [List.length_dropLast, hclen]; omega)]
    · rw [List.length_take, hil2]; decide
    · rw [List.length_take, hcl2]; decide
    · rw [List.length_append, List.length_drop, List.length_singleton, hil2]
      decide
    · rw [List.length_append, List.length_drop, List.length_singleton, hcl2]
      decide
  · have hci15 : child_i = 15 := by omega
    subst hci15
    have hcomp : internalInsertResidual info children 15 r_node =
        ((info.take 9, children.take 9),
         some (info.drop 9 ++ [r_node.textInfo],
          children.drop 9 ++ [r_node])) := by
      simp only [internalInsertResidual, MAX_CHILDREN, hclen]
      norm_num
      simp only [hclen, hilen]
      norm_num
      rw [removeLoop_split 7 _ [] 9 (by rw [hilen]),
        removeLoop_split 7 _ [] 9 (by rw [hclen])]
      simp
    refine ⟨_, _, _, _, hcomp, ?_, ?_, ?_, ?_, ?_, ?_⟩
    · rw [← List.append_assoc, List.take_append_drop,
        show (15 : Nat) + 1 = 16 from rfl, ← hilen, List.insertIdx_length_self]
    · rw [← List.append_assoc, List.take_append_drop,
        show (15 : Nat) + 1 = 16 from rfl, ← hclen, List.insertIdx_length_self]
    · rw [List.length_take, hilen]; decide
    · rw [List.length_take, hclen]; decide
    · rw [List.length_append, List.length_drop, List.length_singleton, hilen]
      decide
    · rw [List.length_append, List.length_drop, List.length_singleton, hclen]
      decide

theorem c2_witness :
    ∃ linfo lch rinfo rch,
      internalInsertResidual (List.replicate 16 (TextInfo.fromStr ['a']))
          (List.replicate 16 (Node.leaf ['a'])) 4 (Node.leaf ['b']) =
        ((linfo, lch), some (rinfo, rch)) ∧
      linfo ++ rinfo =
        (List.replicate 16 (TextInfo.fromStr ['a'])).insertIdx 5
          (Node.leaf ['b']).textInfo ∧
      lch ++ rch =
        (List.replicate 16 (Node.leaf ['a'])).insertIdx 5 (Node.leaf ['b']) ∧
      linfo.length = (MAX_CHILDREN + 2) / 2 ∧
      lch.length = (MAX_CHILDREN + 2) / 2 ∧
      rinfo.length = (MAX_CHILDREN + 1) / 2 ∧
      rch.length = (MAX_CHILDREN + 1) / 2 :=
  c2_full_internal_insert_splits (List.replicate 16 (TextInfo.fromStr ['a']))
    (List.replicate 16 (Node.leaf ['a'])) 4 (Node.leaf ['b'])
    (by simp [MAX_CHILDREN]) (by simp [MAX_CHILDREN]) (by simp [MAX_CHILDREN])

/-- C1: `ChildArray::i` / `i_mut` (`src/child_array.rs:271`, `:280`) are
documented as "Gets references to the nth item's node and info", and the
spec fixes element `n` as the contract; but the code indexes `info` and
`nodes` at `self.len` — one past the last initialized slot — instead of at
`n`.  On the two-element array below with `n = 0`, the read targets slot 2
(uninitialized memory; `none` in the logical model), while the contract
returns item 0. -/
theorem c1_child_array_i_reads_wrong_slot :
    ChildArray.i [(TextInfo.fromStr ['a'], NodeC.leaf ['a']),
        (TextInfo.fromStr ['b'], NodeC.leaf ['b'])] 0 = none ∧
    ChildArray.iSpec [(TextInfo.fromStr ['a'], NodeC.leaf ['a']),
        (TextInfo.fromStr ['b'], NodeC.leaf ['b'])] 0 =
      some (TextInfo.fromStr ['a'], NodeC.leaf ['a']) :=
  ⟨rfl, rfl⟩

/-- `push_split` in closed form: the left `⌈(len+1)/2⌉` items stay, the
rest move to the right half, and the new child is pushed onto its end. -/
theorem pushSplit_eq (a : ChildArray) (item : TextInfo × NodeC) :
    a.pushSplit item =
      (a.take ((a.length + 1) - (a.length + 1) / 2),
       a.drop ((a.length + 1) - (a.length + 1) / 2) ++ [item]) := by
  simp only [ChildArray.pushSplit, ChildArray.splitOff, ChildArray.push]
  rw [removeLoop_split (a.length - ((a.length + 1) - (a.length + 1) / 2)) a []
    ((a.length + 1) - (a.length + 1) / 2) rfl]
  simp

/-- C7: for every non-empty child array (including a full one,
`len = MAX_CHILDREN`) and every `idx ≤ len`, `insert_split(idx, item)`
behaves like `insert` followed by a balanced split: the concatenation of
the array left in place and the returned right array is the original
sequence with `item` inserted at `idx` — which also makes the ordering at
the split boundary deterministic — with the left array keeping
`⌈(len+1)/2⌉` items and the right array holding `⌊(len+1)/2⌋`. -/
theorem c7_insert_split_is_insert_then_split (a : ChildArray) (idx : Nat)
    (item : TextInfo × NodeC) (hne : a ≠ []) (hidx : idx ≤ a.length) :
    ∃ l r, a.insertSplit idx item = (l, r) ∧
      l ++ r = a.insertIdx idx item ∧
      l.length = (a.length + 2) / 2 ∧
      r.length = (a.length + 1) / 2 := by
  have hlenpos : 0 < a.length := List.length_pos.mpr hne
  by_cases hlt : idx < a.length
  · have hdll : a.dropLast.length = a.length - 1 := List.length_dropLast a
    have hidx' : idx ≤ a.dropLast.length := by omega
    have ha2len : (a.dropLast.insertIdx idx item).length = a.length := by
      rw [List.length_insertIdx _ _ hidx', hdll]
      omega
    have hcomp : a.insertSplit idx item =
        ((a.dropLast.insertIdx idx item).take
            ((a.length + 1) - (a.length + 1) / 2),
         (a.dropLast.insertIdx idx item).drop
            ((a.length + 1) - (a.length + 1) / 2) ++
           [a.getLastD (TextInfo.new, NodeC.leaf [])]) := by
      simp only [ChildArray.insertSplit, if_pos hlt, ChildArray.pop,
        ChildArray.insertAt]
      rw [pushSplit_eq, ha2len]
    refine ⟨_, _, hcomp, ?_, ?_, ?_⟩
    · rw [← List.append_assoc, List.take_append_drop]
      conv_rhs =>
        rw [← dropLast_append_getLastD a (TextInfo.new, NodeC.leaf []) hne]
      rw [insertIdx_append_left idx item a.dropLast
        [a.getLastD (TextInfo.new, NodeC.leaf [])] hidx']
    · rw [List.length_take, ha2len]
      omega
    · rw [List.length_append, List.length_drop, List.length_singleton, ha2len]
      omega
  · have hidxeq : idx = a.length := by omega
    have hcomp : a.insertSplit idx item =
        (a.take ((a.length + 1) - (a.length + 1) / 2),
         a.drop ((a.length + 1) - (a.length + 1) / 2) ++ [item]) := by
      simp only [ChildArray.insertSplit, if_neg hlt]
      rw [pushSplit_eq]
    refine ⟨_, _, hcomp, ?_, ?_, ?_⟩
    · rw [← List.append_assoc, List.take_append_drop, hidxeq,
        List.insertIdx_length_self]
    · rw [List.length_take]
      omega
    · rw [List.length_append, List.length_drop, List.length_singleton]
      omega

theorem c7_witness :
    ∃ l r,
      ChildArray.insertSplit [(TextInfo.fromStr ['a'], NodeC.leaf ['a'])] 0
          (TextInfo.fromStr ['b'], NodeC.leaf ['b']) = (l, r) ∧
      l ++ r = List.insertIdx 0 (TextInfo.fromStr ['b'], NodeC.leaf ['b'])
        [(TextInfo.fromStr ['a'], NodeC.leaf ['a'])] ∧
      l.length =
        (([(TextInfo.fromStr ['a'], NodeC.leaf ['a'])] : ChildArray).length + 2) / 2 ∧
      r.length =
        (([(TextInfo.fromStr ['a'], NodeC.leaf ['a'])] : ChildArray).length + 1) / 2 :=
  c7_insert_split_is_insert_then_split
    [(TextInfo.fromStr ['a'], NodeC.leaf ['a'])] 0
    (TextInfo.fromStr ['b'], NodeC.leaf ['b']) (by simp) (by simp)

/-- C10: `fix_grapheme_seam` on an `Empty` node (`src/node.rs:268`) returns
`None` without panicking and leaves the node `Empty`, for every byte
position — even though no byte position on an empty node is a boundary
between two leaves. -/
theorem c10_fix_grapheme_seam_empty
    (fixStr : List Char → List Char → List Char × List Char) (byte_pos : Nat) :
    Node.fixGraphemeSeam fixStr Node.empty byte_pos =
      some (none, Node.empty) := by
  simp [Node.fixGraphemeSeam]

/-- C9: for every `RopeSlice` with `start_char ≤ end_char` and every
in-bounds `char_idx ≤ len_chars()`, the slice-level grapheme queries never
leave the slice window: `is_grapheme_boundary` returns `true` at `0` and at
`len_chars()` unconditionally (for every node-level classifier `ngb`);
`prev_grapheme_boundary` returns `0` whenever the node-level boundary lies
before `start_char`; `next_grapheme_boundary` returns `len_chars()`
whenever the node-level boundary lies at or beyond `end_char`; and, under
the spec-modelled oracle contracts (`nprev x ≤ x` and `x ≤ nnext x`, spec
§4.4.2), every result lies in `[0, len_chars()]`. -/
theorem c9_slice_grapheme_results_clamped (s : RopeSlice)
    (ngb : Nat → Bool) (nprev nnext : Nat → Nat) (char_idx : Nat)
    (hse : s.start_char ≤ s.end_char) (hi : char_idx ≤ s.lenChars)
    (hprev : ∀ x, nprev x ≤ x) (hnext : ∀ x, x ≤ nnext x) :
    s.isGraphemeBoundary ngb 0 = some true ∧
    s.isGraphemeBoundary ngb s.lenChars = some true ∧
    (nprev (s.start_char + char_idx) < s.start_char →
      s.prevGraphemeBoundary nprev char_idx = some 0) ∧
    (∃ r, s.prevGraphemeBoundary nprev char_idx = some r ∧ r ≤ s.lenChars) ∧
    (s.end_char ≤ nnext (s.start_char + char_idx) →
      s.nextGraphemeBoundary nnext char_idx = some s.lenChars) ∧
    (∃ r, s.nextGraphemeBoundary nnext char_idx = some r ∧ r ≤ s.lenChars) := by
  refine ⟨?_, ?_, ?_, ?_, ?_, ?_⟩
  · simp [RopeSlice.isGraphemeBoundary]
  · simp [RopeSlice.isGraphemeBoundary]
  · intro hlt
    simp [RopeSlice.prevGraphemeBoundary, hi, hlt]
  · have hp := hprev (s.start_char + char_idx)
    simp only [RopeSlice.prevGraphemeBoundary, if_pos hi]
    by_cases hlt : nprev (s.start_char + char_idx) < s.start_char
    · exact ⟨0, by simp [hlt], by omega⟩
    · refine ⟨nprev (s.start_char + char_idx) - s.start_char, by simp [hlt], ?_⟩
      simp only [RopeSlice.lenChars] at hi ⊢
      omega
  · intro hge
    simp [RopeSlice.nextGraphemeBoundary, hi, hge]
  · have hn := hnext (s.start_char + char_idx)
    simp only [RopeSlice.nextGraphemeBoundary, if_pos hi]
    by_cases hge : s.end_char ≤ nnext (s.start_char + char_idx)
    · exact ⟨s.lenChars, by simp [hge], by omega⟩
    · refine ⟨nnext (s.start_char + char_idx) - s.start_char, by simp [hge], ?_⟩
      simp only [RopeSlice.lenChars] at hi ⊢
      omega

theorem c9_witness :
    (RopeSlice.isGraphemeBoundary ⟨NodeC.leaf [], 0, 0, 2, 5, 0, 0⟩
        (fun _ => false) 0 = some true) ∧
    (RopeSlice.isGraphemeBoundary ⟨NodeC.leaf [], 0, 0, 2, 5, 0, 0⟩
        (fun _ => false)
        (RopeSlice.lenChars ⟨NodeC.leaf [], 0, 0, 2, 5, 0, 0⟩) = some true) ∧
    (((fun x => x - 1) ((2 : Nat) + 1) < 2) →
      RopeSlice.prevGraphemeBoundary ⟨NodeC.leaf [], 0, 0, 2, 5, 0, 0⟩
        (fun x => x - 1) 1 = some 0) ∧
    (∃ r, RopeSlice.prevGraphemeBoundary ⟨NodeC.leaf [], 0, 0, 2, 5, 0, 0⟩
        (fun x => x - 1) 1 = some r ∧
      r ≤ RopeSlice.lenChars ⟨NodeC.leaf [], 0, 0, 2, 5, 0, 0⟩) ∧
    (((5 : Nat) ≤ (fun x => x + 1) (2 + 1)) →
      RopeSlice.nextGraphemeBoundary ⟨NodeC.leaf [], 0, 0, 2, 5, 0, 0⟩
        (fun x => x + 1) 1 =
        some (RopeSlice.lenChars ⟨NodeC.leaf [], 0, 0, 2, 5, 0, 0⟩)) ∧
    (∃ r, RopeSlice.nextGraphemeBoundary ⟨NodeC.leaf [], 0, 0, 2, 5, 0, 0⟩
        (fun x => x + 1) 1 = some r ∧
      r ≤ RopeSlice.lenChars ⟨NodeC.leaf [], 0, 0, 2, 5, 0, 0⟩) :=
  c9_slice_grapheme_results_clamped ⟨NodeC.leaf [], 0, 0, 2, 5, 0, 0⟩
    (fun _ => false) (fun x => x - 1) (fun x => x + 1) 1
    (by decide) (by decide) (fun x => Nat.sub_le x 1) (fun x => Nat.le_succ x)

/-- C3: `merge_distribute(i, i+1)` on two adjacent leaf children
concatenates the two texts and then: if the result is at most `MAX_BYTES`
bytes it reports merged (`true`) and removes slot `i+1`; otherwise it splits
the combined text at the grapheme-cluster-boundary split position chosen
near the midpoint (the spec-modelled oracle `gb`, interior to the combined
text when such a boundary exists) and reports distributed (`false`); and if
the right side of that split ends up empty — the oracle returned the text's
end because no valid interior boundary exists — it reports merged, leaving
one oversized leaf.  In every case the affected info slots are updated from
the children's current summaries (`TextInfo.fromStr` of the new texts). -/
theorem c3_merge_distribute_adjacent_leaves
    (gb : List Char → Nat → Nat) (a : ChildArray) (i : Nat)
    (inf1 inf2 : TextInfo) (t1 t2 : List Char)
    (hget1 : a.get? i = some (inf1, NodeC.leaf t1))
    (hget2 : a.get? (i + 1) = some (inf2, NodeC.leaf t2))
    (hgb_pos : 0 < gb (t1 ++ t2)
      (strBytes (t1 ++ t2) - strBytes (t1 ++ t2) / 2)) :
    (strBytes (t1 ++ t2) ≤ MAX_BYTES →
      ChildArray.mergeDistribute gb a i (i + 1) =
        some (true,
          (a.set i (TextInfo.fromStr (t1 ++ t2),
            NodeC.leaf (t1 ++ t2))).eraseIdx (i + 1))) ∧
    (MAX_BYTES < strBytes (t1 ++ t2) →
      gb (t1 ++ t2) (strBytes (t1 ++ t2) - strBytes (t1 ++ t2) / 2) <
          (t1 ++ t2).length →
      ChildArray.mergeDistribute gb a i (i + 1) =
        some (false,
          ((a.set i
            (TextInfo.fromStr ((t1 ++ t2).take (gb (t1 ++ t2)
                (strBytes (t1 ++ t2) - strBytes (t1 ++ t2) / 2))),
              NodeC.leaf ((t1 ++ t2).take (gb (t1 ++ t2)
                (strBytes (t1 ++ t2) - strBytes (t1 ++ t2) / 2))))).set (i + 1)
            (TextInfo.fromStr ((t1 ++ t2).drop (gb (t1 ++ t2)
                (strBytes (t1 ++ t2) - strBytes (t1 ++ t2) / 2))),
              NodeC.leaf ((t1 ++ t2).drop (gb (t1 ++ t2)
                (strBytes (t1 ++ t2) - strBytes (t1 ++ t2) / 2))))))) ∧
    (MAX_BYTES < strBytes (t1 ++ t2) →
      gb (t1 ++ t2) (strBytes (t1 ++ t2) - strBytes (t1 ++ t2) / 2) =
          (t1 ++ t2).length →
      ChildArray.mergeDistribute gb a i (i + 1) =
        some (true,
          (a.set i (TextInfo.fromStr (t1 ++ t2),
            NodeC.leaf (t1 ++ t2))).eraseIdx (i + 1))) := by
  have hlen2 : i + 1 < a.length := by
    by_contra h
    rw [List.get?_eq_none.mpr (by omega)] at hget2
    cases hget2
  have hcond : i < i + 1 ∧ i + 1 < a.length := ⟨Nat.lt_succ_self i, hlen2⟩
  refine ⟨?_, ?_, ?_⟩
  · intro hfits
    simp only [ChildArray.mergeDistribute, if_pos hcond, hget1, hget2,
      if_pos hfits, NodeC.textInfo]
  · intro hbig hklt
    have hne2 : 0 < ((t1 ++ t2).drop (gb (t1 ++ t2)
        (strBytes (t1 ++ t2) - strBytes (t1 ++ t2) / 2))).length := by
      rw [List.length_drop]; omega
    simp only [ChildArray.mergeDistribute, if_pos hcond, hget1, hget2,
      if_neg (by omega : ¬ strBytes (t1 ++ t2) ≤ MAX_BYTES), if_pos hne2,
      NodeC.textInfo]
  · intro hbig hkeq
    have hne2 : ¬ 0 < ((t1 ++ t2).drop (gb (t1 ++ t2)
        (strBytes (t1 ++ t2) - strBytes (t1 ++ t2) / 2))).length := by
      rw [List.length_drop]; omega
    simp only [ChildArray.mergeDistribute, if_pos hcond, hget1, hget2,
      if_neg (by omega : ¬ strBytes (t1 ++ t2) ≤ MAX_BYTES), if_neg hne2,
      NodeC.textInfo]
    rw [hkeq, List.take_length]

theorem c3_witness :
    ChildArray.mergeDistribute (fun t _ => t.length)
        [(TextInfo.fromStr ['a'], NodeC.leaf ['a']),
         (TextInfo.fromStr ['b'], NodeC.leaf ['b'])] 0 1 =
      some (true,
        (([(TextInfo.fromStr ['a'], NodeC.leaf ['a']),
           (TextInfo.fromStr ['b'], NodeC.leaf ['b'])].set 0
            (TextInfo.fromStr (['a'] ++ ['b']),
             NodeC.leaf (['a'] ++ ['b']))).eraseIdx 1)) :=
  (c3_merge_distribute_adjacent_leaves (fun t _ => t.length)
    [(TextInfo.fromStr ['a'], NodeC.leaf ['a']),
     (TextInfo.fromStr ['b'], NodeC.leaf ['b'])] 0 _ _ ['a'] ['b']
    rfl rfl (by decide)).1 (by decide)

theorem flattenAllC_append (a b : List (TextInfo × NodeC)) :
    flattenAllC (a ++ b) = flattenAllC a ++ flattenAllC b := by
  induction a with
  | nil => simp [flattenAllC]
  | cons p rest ih =>
    obtain ⟨pi, pc⟩ := p
    simp [flattenAllC, ih]

theorem goodAllC_mem {cs : List (TextInfo × NodeC)} (h : goodAllC cs = true)
    {inf : TextInfo} {c : NodeC} (hp : (inf, c) ∈ cs) :
    inf = c.textInfo ∧ c.goodB = true := by
  induction cs with
  | nil => cases hp
  | cons q rest ih =>
    obtain ⟨qi, qc⟩ := q
    simp only [goodAllC, Bool.and_eq_true, decide_eq_true_eq] at h
    rcases List.mem_cons.mp hp with heq | hp'
    · cases heq
      exact ⟨h.1.1, h.1.2⟩
    · exact ih h.2 hp'

theorem combinedInfo_map_fst_eq (cs : List (TextInfo × NodeC))
    (h : ∀ (inf : TextInfo) (c : NodeC), (inf, c) ∈ cs →
      inf = TextInfo.fromStr c.flatten) :
    combinedInfo (cs.map Prod.fst) = TextInfo.fromStr (flattenAllC cs) := by
  induction cs with
  | nil => rfl
  | cons p rest ih =>
    obtain ⟨pi, pc⟩ := p
    simp only [List.map_cons, combinedInfo_cons]
    rw [show flattenAllC ((pi, pc) :: rest) = pc.flatten ++ flattenAllC rest
        from rfl,
      TextInfo.fromStr_append,
      h pi pc (List.mem_cons_self _ _),
      ih (fun qi qc hq => h qi qc (List.mem_cons_of_mem _ hq))]

/-- Summary consistency for the child-array node: on a consistent subtree
the summary is the metric scan of the flattened text. -/
theorem textInfoC_eq_fromStr (n : NodeC) (h : n.goodB = true) :
    n.textInfo = TextInfo.fromStr n.flatten := by
  match n with
  | .leaf t => rfl
  | .internal cs =>
    have hall : goodAllC cs = true := by simpa [NodeC.goodB] using h
    show combinedInfo (cs.map Prod.fst) = TextInfo.fromStr (flattenAllC cs)
    refine combinedInfo_map_fst_eq cs (fun inf c hm => ?_)
    have hrest := goodAllC_mem hall hm
    have hs : sizeOf c < sizeOf (NodeC.internal cs) := by
      have h1 := List.sizeOf_lt_of_mem hm
      have h2 : sizeOf c < sizeOf (inf, c) := by
        simp only [Prod.mk.sizeOf_spec]
        omega
      have h3 : sizeOf (NodeC.internal cs) = 1 + sizeOf cs := by
        simp
      omega
    rw [hrest.1]
    exact textInfoC_eq_fromStr c hrest.2
termination_by sizeOf n
decreasing_by
  exact hs

/-- Characterize a successful `findChild` scan: the list splits around the
found child, the accumulated prefix chars witness the containment
condition, and the returned bounds are the inputs shifted by that prefix. -/
theorem findChild_some (n_start n_end : Nat) :
    ∀ (l : List (TextInfo × NodeC)) (k : Nat) (nd : NodeC) (s1 e1 : Nat),
      findChild n_start n_end l k = some (nd, s1, e1) →
      ∃ (pre rest : List (TextInfo × NodeC)) (inf : TextInfo),
        l = pre ++ (inf, nd) :: rest ∧
        k + (combinedInfo (pre.map Prod.fst)).chars ≤ n_start ∧
        n_end < k + (combinedInfo (pre.map Prod.fst)).chars + inf.chars ∧
        s1 = n_start - (k + (combinedInfo (pre.map Prod.fst)).chars) ∧
        e1 = n_end - (k + (combinedInfo (pre.map Prod.fst)).chars) := by
  intro l
  induction l with
  | nil => intro k nd s1 e1 h; cases h
  | cons p rest0 ih =>
    intro k nd s1 e1 h
    obtain ⟨inf0, nd0⟩ := p
    by_cases hcond : k ≤ n_start ∧ n_end < k + inf0.chars
    · simp only [findChild, if_pos hcond, Option.some.injEq,
        Prod.mk.injEq] at h
      obtain ⟨h1, h2, h3⟩ := h
      refine ⟨[], rest0, inf0, ?_, ?_, ?_, ?_, ?_⟩
      · rw [h1]
        rfl
      · simp only [List.map_nil, combinedInfo_nil, TextInfo.new]
        omega
      · simp only [List.map_nil, combinedInfo_nil, TextInfo.new]
        omega
      · simp only [List.map_nil, combinedInfo_nil, TextInfo.new]
        omega
      · simp only [List.map_nil, combinedInfo_nil, TextInfo.new]
        omega
    · simp only [findChild, if_neg hcond] at h
      obtain ⟨pre, rest1, inf, hl, hle, hlt, hs, hee⟩ :=
        ih (k + inf0.chars) nd s1 e1 h
      have hchars : (combinedInfo (((inf0, nd0) :: pre).map Prod.fst)).chars =
          inf0.chars + (combinedInfo (pre.map Prod.fst)).chars := by
        simp [List.map_cons, combinedInfo_cons, TextInfo.combine]
      refine ⟨(inf0, nd0) :: pre, rest1, inf, ?_, ?_, ?_, ?_, ?_⟩
      · rw [List.cons_append, hl]
      · rw [hchars]; omega
      · rw [hchars]; omega
      · rw [hchars]; omega
      · rw [hchars]; omega

/-- C8: for a consistent tree and a char range `s ≤ e ≤ root.chars`, the
slice-construction descent steps, at each internal node, into the unique
child whose char range wholly contains `[s, e)` (`s ≥ prefix.chars` and
`e < prefix.chars + info[i].chars`), subtracting the prefix chars from both
bounds, and stops as soon as no such child exists or a leaf is reached: the
stored node is a subtree whose flattened text sits at the offset removed
from the bounds (so the stored char bounds are local to it and still in
range), and it is the deepest such subtree — the result is a leaf or has no
child wholly containing the local range. -/
theorem c8_slice_descends_to_deepest_containing (root : NodeC) (s e : Nat)
    (hg : root.goodB = true) (hse : s ≤ e) (he : e ≤ root.textInfo.chars) :
    ∃ nd s1 e1,
      newWithRangeCore root s e = (nd, s1, e1) ∧
      (∃ pre post, root.flatten = pre ++ nd.flatten ++ post ∧
        s = pre.length + s1 ∧ e = pre.length + e1) ∧
      s1 ≤ e1 ∧ e1 ≤ nd.textInfo.chars ∧
      ((∃ t, nd = NodeC.leaf t) ∨
       (∃ cs, nd = NodeC.internal cs ∧ findChild s1 e1 cs 0 = none)) := by
  match root with
  | .leaf t =>
    refine ⟨.leaf t, s, e, ?_, ⟨[], [], by simp, by simp, by simp⟩, hse, he,
      Or.inl ⟨t, rfl⟩⟩
    simp [newWithRangeCore]
  | .internal cs =>
    cases hfc : findChild s e cs 0 with
    | none =>
      refine ⟨.internal cs, s, e, ?_, ⟨[], [], by simp, by simp, by simp⟩,
        hse, he, Or.inr ⟨cs, rfl, hfc⟩⟩
      simp only [newWithRangeCore]
      split
      · next nd' s' e' hsome =>
        rw [hfc] at hsome
        cases hsome
      · rfl
    | some r0 =>
      obtain ⟨nd0, s1, e1⟩ := r0
      obtain ⟨pre, rest, inf, hl, hle, hlt, hs1, he1⟩ :=
        findChild_some s e cs 0 nd0 s1 e1 hfc
      simp only [Nat.zero_add] at hle hlt hs1 he1
      have hgcs : goodAllC cs = true := by simpa [NodeC.goodB] using hg
      have hmem : (inf, nd0) ∈ cs := by
        rw [hl]
        exact List.mem_append_right _ (List.mem_cons_self _ _)
      obtain ⟨hinf, hgood0⟩ := goodAllC_mem hgcs hmem
      have hinfflat : inf = TextInfo.fromStr nd0.flatten := by
        rw [hinf]
        exact textInfoC_eq_fromStr nd0 hgood0
      have hinfchars : inf.chars = nd0.flatten.length := by
        rw [hinfflat]
        simp [TextInfo.fromStr]
      have hpre_pt : ∀ (qi : TextInfo) (qc : NodeC), (qi, qc) ∈ pre →
          qi = TextInfo.fromStr qc.flatten := by
        intro qi qc hq
        have hqcs : (qi, qc) ∈ cs := by
          rw [hl]
          exact List.mem_append_left _ hq
        obtain ⟨h1, h2⟩ := goodAllC_mem hgcs hqcs
        rw [h1]
        exact textInfoC_eq_fromStr qc h2
      have hdelta : (combinedInfo (pre.map Prod.fst)).chars =
          (flattenAllC pre).length := by
        rw [combinedInfo_map_fst_eq pre hpre_pt]
        simp [TextInfo.fromStr]
      have hs1e1 : s1 ≤ e1 := by omega
      have he1chars : e1 ≤ nd0.textInfo.chars := by
        have hc0 : nd0.textInfo.chars = nd0.flatten.length := by
          rw [textInfoC_eq_fromStr nd0 hgood0]
          simp [TextInfo.fromStr]
        omega
      obtain ⟨nd, s2, e2, hrec, ⟨pre2, post2, hflat2, hs2, he2⟩, hle2,
        hchars2, hstop⟩ :=
        c8_slice_descends_to_deepest_containing nd0 s1 e1 hgood0 hs1e1 he1chars
      refine ⟨nd, s2, e2, ?_, ?_, hle2, hchars2, hstop⟩
      · simp only [newWithRangeCore]
        split
        · next nd' s' e' hsome =>
          rw [hfc] at hsome
          simp only [Option.some.injEq, Prod.mk.injEq] at hsome
          obtain ⟨h1, h2, h3⟩ := hsome
          subst h1; subst h2; subst h3
          exact hrec
        · next hnone =>
          rw [hfc] at hnone
          cases hnone
      · refine ⟨flattenAllC pre ++ pre2, post2 ++ flattenAllC rest, ?_, ?_, ?_⟩
        · show flattenAllC cs = _
          rw [hl, flattenAllC_append,
            show flattenAllC ((inf, nd0) :: rest) =
              nd0.flatten ++ flattenAllC rest from rfl,
            hflat2]
          simp [List.append_assoc]
        · rw [List.length_append]
          omega
        · rw [List.length_append]
          omega
termination_by sizeOf root
decreasing_by
  simp_wf
  have h1 := List.sizeOf_lt_of_mem hmem
  have h2 : sizeOf nd0 < sizeOf (inf, nd0) := by
    simp only [Prod.mk.sizeOf_spec]
    omega
  omega

theorem c8_witness :
    ∃ nd s1 e1,
      newWithRangeCore
          (NodeC.internal [(TextInfo.fromStr ['a', 'b'], NodeC.leaf ['a', 'b']),
            (TextInfo.fromStr ['c'], NodeC.leaf ['c'])]) 0 1 = (nd, s1, e1) ∧
      (∃ pre post,
        (NodeC.internal [(TextInfo.fromStr ['a', 'b'], NodeC.leaf ['a', 'b']),
          (TextInfo.fromStr ['c'], NodeC.leaf ['c'])]).flatten =
            pre ++ nd.flatten ++ post ∧
        0 = pre.length + s1 ∧ 1 = pre.length + e1) ∧
      s1 ≤ e1 ∧ e1 ≤ nd.textInfo.chars ∧
      ((∃ t, nd = NodeC.leaf t) ∨
       (∃ cs, nd = NodeC.internal cs ∧ findChild s1 e1 cs 0 = none)) :=
  c8_slice_descends_to_deepest_containing
    (NodeC.internal [(TextInfo.fromStr ['a', 'b'], NodeC.leaf ['a', 'b']),
      (TextInfo.fromStr ['c'], NodeC.leaf ['c'])]) 0 1
    (by decide) (by decide) (by decide)
